import Mathlib

/-!
Verification development for the `UnlimitedIPList` repository
(`unlimitediplist/unlimitediplist.py`).

The Python source is shallowly embedded below.  Strings are modelled as
`List Char` (`Str`); Python's arbitrary-precision non-negative integers as
`Nat` (queries, which may be negative, as `Int`); functions that can raise
or return `None` as `Option`-valued functions.  External library calls
(`socket.inet_aton`, `socket.inet_ntoa`, `socket.inet_pton`, `struct`
pack/unpack, `bisect.bisect_right`, `str.strip`, `str.split`, `int(...)`)
are modelled by executable Lean functions that follow their documented
behaviour on the inputs this program can feed to them.
-/

/-- Python strings are modelled as lists of characters. -/
abbrev Str := List Char

/-- Characters treated as whitespace by `str.strip()` (ASCII subset;
Python additionally strips some unicode whitespace that never occurs in
this program's data). -/
def isPyWs (c : Char) : Bool :=
  c = ' ' || c = '\t' || c = '\n' || c = '\r' || c = '\x0b' || c = '\x0c'

/-- Model of Python `str.strip()`. -/
def pyStrip (s : Str) : Str :=
  ((s.dropWhile isPyWs).reverse.dropWhile isPyWs).reverse

/-- Model of Python `str.split(sep)` for a one-character separator:
`"".split(c) = [""]`, and separators delimit (possibly empty) fields. -/
def splitChar (c : Char) : Str → List Str
  | [] => [[]]
  | x :: xs =>
    match splitChar c xs with
    | [] => [[]]
    | p :: ps => if x = c then [] :: p :: ps else (x :: p) :: ps

/-- Model of `sep.join(parts)` for a one-character separator. -/
def joinChar (c : Char) : List Str → Str
  | [] => []
  | [p] => p
  | p :: ps => p ++ c :: joinChar c ps

/-- First-occurrence deduplication, the model of `dict.fromkeys` (and of
`list(set(...))`, whose iteration order is unspecified in Python; no claim
below depends on that order, so the deterministic first-occurrence order is
used). -/
def dedupGo (seen : List Str) : List Str → List Str
  | [] => []
  | x :: xs => if x ∈ seen then dedupGo seen xs else x :: dedupGo (x :: seen) xs

/-- Deduplication keeping first occurrences. -/
def dedupFirst (l : List Str) : List Str := dedupGo [] l

/-- Insert into a sorted list, before the first element `y` with
`le x y`; used to build a stable sort (Python's `sort`/`sorted` are
stable). -/
def insertSorted (le : α → α → Bool) (x : α) : List α → List α
  | [] => [x]
  | y :: ys => if le x y then x :: y :: ys else y :: insertSorted le x ys

/-- Stable insertion sort: model of Python `sorted` / `list.sort`. -/
def sortBy (le : α → α → Bool) : List α → List α
  | [] => []
  | x :: xs => insertSorted le x (sortBy le xs)

/-- Fuel-driven worker for `splitList`. -/
def splitListAux (k : Nat) : Nat → List α → List (List α)
  | 0, _ => []
  | _, [] => []
  | fuel + 1, l => l.take k :: splitListAux k fuel (l.drop k)

/-- Model of `UnlimitedIPList.__split_list`:
`[a_list[i:i+size] for i in range(0, len(a_list), size)]`.
For `size = 0` Python's `range` raises and the method returns `[]`. -/
def splitList (l : List α) (k : Nat) : List (List α) :=
  if k = 0 then [] else splitListAux k l.length l

/-- Fuel-driven worker for `bisectRight` (the loop of
`bisect.bisect_right`; the fuel exceeds the worst-case iteration count). -/
def bisectGo (a : List Nat) (x : Int) : Nat → Nat → Nat → Nat
  | 0, lo, _ => lo
  | fuel + 1, lo, hi =>
    if lo < hi then
      let mid := (lo + hi) / 2
      if x < (a.getD mid 0 : Nat) then bisectGo a x fuel lo mid
      else bisectGo a x fuel (mid + 1) hi
    else lo

/-- Model of `bisect.bisect_right(a, x)`. -/
def bisectRight (a : List Nat) (x : Int) : Nat :=
  bisectGo a x (a.length + 1) 0 a.length

/-- Model of Python list indexing `l[i]`, which resolves negative indices
from the end and raises (`none`) when out of range. -/
def pyGet (l : List α) (i : Int) : Option α :=
  let j : Int := if 0 ≤ i then i else i + l.length
  if 0 ≤ j then l.get? j.toNat else none

/-- Decimal digit character for a value below 10. -/
def decDigitChar (d : Nat) : Char := Char.ofNat (48 + d)

/-- Fuel-driven decimal rendering worker. -/
def renderNatGo : Nat → Nat → Str
  | 0, _ => []
  | fuel + 1, n =>
    if n < 10 then [decDigitChar n]
    else renderNatGo fuel (n / 10) ++ [decDigitChar (n % 10)]

/-- Model of Python decimal rendering of a non-negative integer
(`str(n)` / f-string `{n}`). -/
def renderNat (n : Nat) : Str := renderNatGo (n + 1) n

/-- Value of a decimal digit character. -/
def decVal (c : Char) : Option Nat :=
  if '0' ≤ c && c ≤ '9' then some (c.toNat - 48) else none

/-- Value of a hexadecimal digit character (either case). -/
def hexVal (c : Char) : Option Nat :=
  if '0' ≤ c && c ≤ '9' then some (c.toNat - 48)
  else if 'a' ≤ c && c ≤ 'f' then some (c.toNat - 87)
  else if 'A' ≤ c && c ≤ 'F' then some (c.toNat - 55)
  else none

/-- Value of an octal digit character. -/
def octVal (c : Char) : Option Nat :=
  if '0' ≤ c && c ≤ '7' then some (c.toNat - 48) else none

/-- Fold a digit string in the given base using a per-digit reader. -/
def foldDigits (base : Nat) (rd : Char → Option Nat) (acc : Nat) : Str → Option Nat
  | [] => some acc
  | c :: rest =>
    match rd c with
    | some d => foldDigits base rd (acc * base + d) rest
    | none => none

/-- Digit run of a Python integer literal: digits with single underscores
allowed between digits (model of the digit grammar accepted by `int`). -/
def pyIntDigitsGo (acc : Nat) : Str → Option Nat
  | [] => some acc
  | '_' :: c :: rest =>
    match decVal c with
    | some d => pyIntDigitsGo (acc * 10 + d) rest
    | none => none
  | c :: rest =>
    match decVal c with
    | some d => pyIntDigitsGo (acc * 10 + d) rest
    | none => none

/-- Nonempty digit run starting with a digit. -/
def pyIntDigitsTop : Str → Option Nat
  | [] => none
  | c :: rest =>
    match decVal c with
    | some d => pyIntDigitsGo d rest
    | none => none

/-- Model of Python `int(s)`: optional surrounding whitespace, optional
sign, decimal digits with single interior underscores. -/
def parsePyInt (s : Str) : Option Int :=
  match pyStrip s with
  | '+' :: rest => (pyIntDigitsTop rest).map Int.ofNat
  | '-' :: rest => (pyIntDigitsTop rest).map (fun n => -(n : Int))
  | t => (pyIntDigitsTop t).map Int.ofNat

/-- One dot-separated component of `inet_aton`'s numbers-and-dots
notation, read with C `strtoul` base-0 semantics (hex with `0x`, octal
with leading `0`, otherwise decimal) and required to consume the whole
component. -/
def atonPart : Str → Option Nat
  | [] => none
  | '0' :: 'x' :: rest => if rest = [] then none else foldDigits 16 hexVal 0 rest
  | '0' :: 'X' :: rest => if rest = [] then none else foldDigits 16 hexVal 0 rest
  | '0' :: rest => foldDigits 8 octVal 0 rest
  | l => foldDigits 10 decVal 0 l

/-- Model of `socket.inet_aton` combined with `struct.unpack("!L", ...)`:
parses numbers-and-dots notation to the 32-bit big-endian integer
(`none` models the raised error). -/
def inetAton (s : Str) : Option Nat :=
  match (splitChar '.' s).mapM atonPart with
  | none => none
  | some [a] => if a < 2 ^ 32 then some a else none
  | some [a, b] =>
    if a < 256 && b < 2 ^ 24 then some (a * 2 ^ 24 + b) else none
  | some [a, b, c] =>
    if a < 256 && b < 256 && c < 2 ^ 16 then
      some (a * 2 ^ 24 + b * 2 ^ 16 + c) else none
  | some [a, b, c, d] =>
    if a < 256 && b < 256 && c < 256 && d < 256 then
      some (a * 2 ^ 24 + b * 2 ^ 16 + c * 2 ^ 8 + d) else none
  | some _ => none

/-- Model of `struct.pack(">L", n)` followed by `socket.inet_ntoa`:
renders the dotted-quad form of an integer below `2^32`. -/
def inetNtoa (n : Nat) : Str :=
  renderNat (n / 2 ^ 24 % 256) ++ '.' :: renderNat (n / 2 ^ 16 % 256) ++
    '.' :: renderNat (n / 2 ^ 8 % 256) ++ '.' :: renderNat (n % 256)

/-- Lowercase hexadecimal digit character for a value below 16. -/
def hexDigChar (d : Nat) : Char :=
  if d < 10 then Char.ofNat (48 + d) else Char.ofNat (87 + d)

/-- Model of the f-string `{k:04x}` for a 16-bit value. -/
def hex4 (k : Nat) : Str :=
  [hexDigChar (k / 4096 % 16), hexDigChar (k / 256 % 16),
   hexDigChar (k / 16 % 16), hexDigChar (k % 16)]

/-- An IPv6 group: one to four hexadecimal digits. -/
def hexGroup (l : Str) : Option Nat :=
  if l = [] || 4 < l.length then none else foldDigits 16 hexVal 0 l

/-- One byte of an embedded dotted-quad tail inside `inet_pton`:
one to three decimal digits, value at most 255. -/
def ptonV4Part (l : Str) : Option Nat :=
  if l = [] || 3 < l.length then none
  else match foldDigits 10 decVal 0 l with
       | some v => if v < 256 then some v else none
       | none => none

/-- Embedded dotted-quad tail of an IPv6 address, as two 16-bit groups. -/
def ptonV4 (s : Str) : Option (Nat × Nat) :=
  match (splitChar '.' s).mapM ptonV4Part with
  | some [a, b, c, d] => some (a * 256 + b, c * 256 + d)
  | _ => none

/-- A leading empty colon-field is only legal as the first half of a
leading `::`; consume one of the pair. -/
def ptonTrimHead : List Str → Option (List Str)
  | [] :: rest =>
    match rest with
    | [] :: _ => some rest
    | _ => none
  | l => some l

/-- Symmetric trim at the end for a trailing `::`. -/
def ptonTrimTail (l : List Str) : Option (List Str) :=
  match ptonTrimHead l.reverse with
  | some r => some r.reverse
  | none => none

/-- Parse a run of colon-separated IPv6 groups into 16-bit values; a
dotted-quad component is allowed only in final position when `allowV4`. -/
def parseGroupList (allowV4 : Bool) : List Str → Option (List Nat)
  | [] => some []
  | [g] =>
    match hexGroup g with
    | some v => some [v]
    | none =>
      if allowV4 then (ptonV4 g).map (fun p => [p.1, p.2]) else none
  | g :: rest =>
    match hexGroup g with
    | some v => (parseGroupList allowV4 rest).map (v :: ·)
    | none => none

/-- Combine eight 16-bit groups into the 128-bit integer. -/
def groupsVal (gs : List Nat) : Nat := gs.foldl (fun acc g => acc * 65536 + g) 0

/-- Model of `socket.inet_pton(AF_INET6, s)` combined with
`int.from_bytes(..., "big")`: RFC-style IPv6 text, one optional `::`
compression, optional embedded dotted-quad tail. -/
def inetPton (s : Str) : Option Nat :=
  match ptonTrimHead (splitChar ':' s) with
  | none => none
  | some p1 =>
    match ptonTrimTail p1 with
    | none => none
    | some p2 =>
      let emp := p2.countP (· = ([] : Str))
      if emp = 0 then
        match parseGroupList true p2 with
        | some gs => if gs.length = 8 then some (groupsVal gs) else none
        | none => none
      else if emp = 1 then
        let L := p2.takeWhile (· ≠ ([] : Str))
        let R := p2.drop (L.length + 1)
        match parseGroupList false L, parseGroupList true R with
        | some gl, some gr =>
          let total := gl.length + gr.length
          if total ≤ 7 then
            some (groupsVal (gl ++ List.replicate (8 - total) 0 ++ gr))
          else none
        | _, _ => none
      else none

/-- The eight 16-bit hextets of a 128-bit integer, as computed from its
big-endian byte representation in `int_to_ip`. -/
def hextetsOf (n : Nat) : List Nat :=
  (List.range 8).map fun i => n / 2 ^ (16 * (7 - i)) % 65536

/-- The fully expanded zero-padded IPv6 rendering used by `int_to_ip`. -/
def renderIp6 (n : Nat) : Str := joinChar ':' ((hextetsOf n).map hex4)

/-- Model of `UnlimitedIPList.ip_to_int`: try IPv4 first, then IPv6,
`None` if neither parses. -/
def ipToInt (ipaddr : Str) : Option Nat :=
  match inetAton (pyStrip ipaddr) with
  | some v => some v
  | none => inetPton (pyStrip ipaddr)

/-- Model of `UnlimitedIPList.int_to_ip`.  The source tests
`iplong <= 2**32` (sic): at exactly `2^32` the IPv4 branch is taken and
`struct.pack(">L", ...)` raises, which the method turns into `None`; for
values of 128 bits or more `int.to_bytes(16, "big")` raises, also
yielding `None`. -/
def intToIp (iplong : Nat) : Option Str :=
  if iplong ≤ 2 ^ 32 then
    if iplong < 2 ^ 32 then some (inetNtoa iplong) else none
  else if iplong < 2 ^ 128 then some (renderIp6 iplong) else none

/-- The literal hextet `"0000"`. -/
def zeroHx : Str := ['0', '0', '0', '0']

/-- The zero-run search loop of `compress_ipv6` (state
`(best_start, best_len, curr_start, curr_len)`, all initialised to -1),
followed by the final best-update. -/
def cmpLoop (hx : List Str) : Int × Int :=
  let st := (List.range 8).foldl
    (fun (st : Int × Int × Int × Int) i =>
      let (bs, bl, cs, cl) := st
      if hx.getD i [] = zeroHx then
        if cs = -1 then (bs, bl, (i : Int), 1) else (bs, bl, cs, cl + 1)
      else
        if cl > bl then (cs, cl, -1, -1) else (bs, bl, -1, -1))
    (-1, -1, -1, -1)
  let (bs, bl, cs, cl) := st
  if cl > bl then (cs, cl) else (bs, bl)

/-- Model of `str.replace(":::", "::")`: non-overlapping left-to-right
replacement. -/
def replaceTriple : Str → Str
  | ':' :: ':' :: ':' :: rest => ':' :: ':' :: replaceTriple rest
  | c :: rest => c :: replaceTriple rest
  | [] => []

/-- Model of `UnlimitedIPList.compress_ipv6` on a string argument (the
only way the source invokes it). -/
def compressIpv6 (s : Str) : Str :=
  let base := if s.contains '/' then (splitChar '/' s).headD [] else s
  let hx0 := (splitChar ':' base).map (fun h => if h = [] then zeroHx else h)
  let hx := if hx0.length ≠ 8 then hx0 ++ List.replicate (8 - hx0.length) zeroHx else hx0
  let p := cmpLoop hx
  let bs := p.1
  let bl := p.2
  let hx2 :=
    if bl > 1 then
      let l1 := hx.take bs.toNat ++ [[]] ++ hx.drop (bs + bl).toNat
      let l2 := if bs = 0 then [] :: l1 else l1
      if bs + bl = 8 then l2 ++ [[]] else l2
    else hx
  replaceTriple (joinChar ':' hx2)

/-- Model of `UnlimitedIPList._normalize_cidr_suffix`. -/
def normalizeCidrSuffix (ipaddr : Str) : Str :=
  let ip := pyStrip ipaddr
  if ip.contains '/' then ip
  else if ip.contains ':' then ip ++ '/' :: ['1', '2', '8']
  else ip ++ '/' :: ['3', '2']

/-- Model of `UnlimitedIPList.is_valid_cidr`.  The source's strictness
test `ip_int & ~mask == 0` with `mask = ((1 << p) - 1) << (bits - p)` is
rendered as `ip_int &&& (2^(bits-p) - 1) = 0`, which is equal to it for
every `ip_int < 2^bits` (the only values the parsers produce). -/
def isValidCidr (cidr0 : Str) (strict : Bool := true) : Bool :=
  let cidr1 := pyStrip cidr0
  let cidr2? :=
    if !cidr1.contains '/' then
      if strict then none else some (normalizeCidrSuffix cidr1)
    else some cidr1
  match cidr2? with
  | none => false
  | some cidr =>
    match splitChar '/' cidr with
    | [ipPart, prefixStr] =>
      match parsePyInt prefixStr with
      | none => false
      | some p =>
        if ipPart.contains '.' then
          match inetAton ipPart with
          | none => false
          | some ipInt =>
            if p < 0 || 32 < p then false
            else if strict then decide (ipInt &&& (2 ^ (32 - p.toNat) - 1) = 0)
            else true
        else
          match inetPton ipPart with
          | none => false
          | some ipInt =>
            if p < 0 || 128 < p then false
            else if strict then decide (ipInt &&& (2 ^ (128 - p.toNat) - 1) = 0)
            else true
    | _ => false

/-- Model of `UnlimitedIPList.get_valid_cidr`.  Any exception inside the
method (including `compress_ipv6(None)` when `int_to_ip` returned `None`)
is caught and turned into `None`. -/
def getValidCidr (cidr0 : Str) (normalize : Bool := true) : Option Str :=
  let cidr1 := pyStrip cidr0
  let cidr2? :=
    if !cidr1.contains '/' then
      if !normalize then none else some (normalizeCidrSuffix cidr1)
    else some cidr1
  match cidr2? with
  | none => none
  | some cidr =>
    match splitChar '/' cidr with
    | [ipStr, prefixStr] =>
      match parsePyInt prefixStr with
      | none => none
      | some p =>
        if ipStr.contains '.' then
          if p < 0 || 32 < p then none
          else
            match inetAton ipStr with
            | none => none
            | some ipInt =>
              if normalize then
                let mask := (2 ^ p.toNat - 1) <<< (32 - p.toNat)
                some (inetNtoa (ipInt &&& mask) ++ '/' :: renderNat p.toNat)
              else
                if ipInt &&& (2 ^ (32 - p.toNat) - 1) ≠ 0 then none
                else some (ipStr ++ '/' :: renderNat p.toNat)
        else
          match inetPton ipStr with
          | none => none
          | some ipInt =>
            if p < 0 || 128 < p then none
            else if normalize then
              let mask := (2 ^ p.toNat - 1) <<< (128 - p.toNat)
              match intToIp (ipInt &&& mask) with
              | none => none
              | some r => some (compressIpv6 r ++ '/' :: renderNat p.toNat)
            else
              if ipInt &&& (2 ^ (128 - p.toNat) - 1) ≠ 0 then none
              else some (ipStr ++ '/' :: renderNat p.toNat)
    | _ => none

/-- Model of `UnlimitedIPList.__get_first_last_ip_cidr`: network and
broadcast integers of a CIDR, `(0, 0)` on any failure (bad split, bad
prefix integer, unparseable address, or a shift by a negative amount when
the prefix is outside `[0, bits]`). -/
def getFirstLastIpCidr (cidr : Str) : Nat × Nat :=
  match splitChar '/' cidr with
  | [ipPart, prefixPart] =>
    match parsePyInt prefixPart with
    | none => (0, 0)
    | some p =>
      match ipToInt ipPart with
      | none => (0, 0)
      | some ipInt =>
        let bits : Nat := if ipPart.contains ':' then 128 else 32
        if p < 0 || (bits : Int) < p then (0, 0)
        else
          let mask := ((2 ^ p.toNat - 1) <<< (bits - p.toNat)) &&& (2 ^ bits - 1)
          let networkIp := ipInt &&& mask
          (networkIp, networkIp ||| (2 ^ (bits - p.toNat) - 1))
  | _ => (0, 0)

/-- Model of `UnlimitedIPList.__ip_ranges_overlap`. -/
def ipRangesOverlap (first1 last1 first2 last2 : Nat) : Bool :=
  !(last1 < first2 || last2 < first1)

/-- The quantity `abs(chunk_size - math.ceil(list_size / chunk_size))`
minimised by `__find_balanced_chunk_size`.  Python computes the ceiling
with float division, which agrees with the exact ceiling
`(n + c - 1) / c` for every list size this program can reach; the exact
ceiling is used here. -/
def chunkDiff (n c : Nat) : Nat :=
  ((c : Int) - (((n + c - 1) / c : Nat) : Int)).natAbs

/-- Loop of `__find_balanced_chunk_size`, over chunk sizes `c, c+1, ...`
with `rem` sizes left to try; `best`/`bestDiff` track the running
minimiser (`bestDiff = none` is the initial `float("inf")`). -/
def fbGo (n : Nat) : Nat → Nat → Nat → Option Nat → Nat
  | 0, _, best, _ => best
  | rem + 1, c, best, bestDiff =>
    if chunkDiff n c ≤ 1 then c
    else
      if (match bestDiff with
          | none => true
          | some b => decide (chunkDiff n c < b)) then
        fbGo n rem (c + 1) c (some (chunkDiff n c))
      else fbGo n rem (c + 1) best bestDiff

/-- Model of `UnlimitedIPList.__find_balanced_chunk_size`. -/
def findBalancedChunkSize (listSize : Nat) (minChunkSize : Nat := 100)
    (maxChunkSize : Nat := 5000) : Nat :=
  if listSize ≤ minChunkSize then listSize
  else fbGo listSize maxChunkSize 1 1 none

/-- Scan of `_remove_overlapping_cidrs` over the tail of the sorted list:
keeps an entry iff its first address exceeds the last address of the most
recently kept entry; discarded entries are collected in scan order. -/
def removeOvGo (prevLast : Nat) : List (Str × Nat × Nat) → List Str × List Str
  | [] => ([], [])
  | (c, f, l) :: rest =>
    if f ≤ prevLast then
      let (k, d) := removeOvGo prevLast rest
      (k, c :: d)
    else
      let (k, d) := removeOvGo l rest
      (c :: k, d)

/-- Model of `UnlimitedIPList._remove_overlapping_cidrs`: pair each CIDR
with its range, sort (stably) by the first address, keep the scan
survivors.  `none` models the `IndexError` the source raises on an empty
argument (`cidrs[0]`). -/
def removeOverlappingCidrs (newList : List Str) : Option (List Str × List Str) :=
  let cidrs := sortBy (fun a b => decide (a.2.1 ≤ b.2.1))
    (newList.map fun c => (c, getFirstLastIpCidr c))
  match cidrs with
  | [] => none
  | (c, _, l0) :: rest =>
    let p := removeOvGo l0 rest
    some (c :: p.1, p.2)

/-- Model of `UnlimitedIPList.__normalize_and_remove_invalid_cidr`:
returns the normalised survivors and the discarded inputs, in order. -/
def normalizeAndRemoveInvalidCidr : List Str → List Str × List Str
  | [] => ([], [])
  | c :: rest =>
    let p := normalizeAndRemoveInvalidCidr rest
    match getValidCidr c true with
    | some v => (v :: p.1, p.2)
    | none => (p.1, c :: p.2)

/-- Model of `UnlimitedIPList.__normalize_cidr`: only append the default
full-length suffix where missing. -/
def normalizeCidrList (l : List Str) : List Str := l.map normalizeCidrSuffix

/-- Model of `UnlimitedIPList.__discard_invalid_cidr` (strict
validation): survivors and discards, in order. -/
def discardInvalidCidr : List Str → List Str × List Str
  | [] => ([], [])
  | c :: rest =>
    let p := discardInvalidCidr rest
    if isValidCidr c true then (c :: p.1, p.2) else (p.1, c :: p.2)

/-- Lexicographic (code-point) string order, the model of Python `<=` on
strings as used by the key-less `sorted`. -/
def strLeB : Str → Str → Bool
  | [], _ => true
  | _ :: _, [] => false
  | a :: as, b :: bs =>
    if a.toNat < b.toNat then true
    else if b.toNat < a.toNat then false
    else strLeB as bs

/-- Sort key of the final sort in `__process_list`:
`ip_to_int(ip.split("/")[0])`.  On this code path every entry has passed
strict CIDR validation, so the key is always defined; the `getD 0`
default is never exercised. -/
def sortKeyOf (s : Str) : Nat := (ipToInt ((splitChar '/' s).headD [])).getD 0

/-- The mutable state of an `UnlimitedIPList` instance: the canonical
entry list, the three parallel chunk structures, the chunk index and the
discard log. -/
structure IPListState where
  cidrs : List Str
  listChunks : List (List Str)
  firstIpChunks : List (List Nat)
  lastIpChunks : List (List Nat)
  listIndex : List Nat
  discardedCidrs : List Str
deriving DecidableEq, Repr

/-- Constructor options (the `debug` flag only controls logging and is
omitted). -/
structure Config where
  normalizeInvalidCidr : Bool
  raiseOnError : Bool
deriving DecidableEq, Repr

/-- The state of a freshly created, still unpopulated instance. -/
def emptyState : IPListState := ⟨[], [], [], [], [], []⟩

/-- Model of `UnlimitedIPList.__clear_lists`. -/
def clearLists (st : IPListState) (clearDiscarded : Bool) : IPListState :=
  { cidrs := [], listChunks := [], firstIpChunks := [], lastIpChunks := [],
    listIndex := [],
    discardedCidrs := if clearDiscarded then [] else st.discardedCidrs }

/-- Result of `__process_list`: `return True`, `return False`, or a
raised `UnlimitedIPListException`. -/
inductive PyRes
  | retTrue
  | retFalse
  | exc
deriving DecidableEq, Repr

/-- Model of `UnlimitedIPList.__process_list`.  `discardedArg` models the
`discarded_cidrs` keyword argument (default `[]`): the discard log is
cleared exactly when that argument is empty.  The only exception the body
can raise is the `IndexError` of `_remove_overlapping_cidrs` on an empty
list, modelled by its `none` result (unreachable on this guarded path);
on exception the source clears everything
(`self.clear_ip_networks_list()`) and re-raises or returns `False`. -/
def processList (cfg : Config) (st : IPListState) (input : List Str)
    (checkOverlap : Bool := true) (discardedArg : List Str := []) :
    IPListState × PyRes :=
  let st := if discardedArg = [] then { st with discardedCidrs := [] } else st
  let nl1 := ((dedupFirst input).map pyStrip).filter (fun s => s ≠ [])
  if nl1 = [] then (clearLists st false, .retFalse)
  else
    let p1 :=
      if cfg.normalizeInvalidCidr then normalizeAndRemoveInvalidCidr nl1
      else (normalizeCidrList nl1, [])
    let st := { st with discardedCidrs := st.discardedCidrs ++ p1.2 }
    let p2 := discardInvalidCidr p1.1
    let st := { st with discardedCidrs := st.discardedCidrs ++ p2.2 }
    if p2.1 = [] then (clearLists st false, .retFalse)
    else
      let nl4 := sortBy (fun a b => decide (sortKeyOf a ≤ sortKeyOf b))
        ((sortBy strLeB (dedupFirst p2.1)).filter (fun s => s ≠ []))
      match (if checkOverlap then removeOverlappingCidrs nl4 else some (nl4, [])) with
      | none => (clearLists st true, if cfg.raiseOnError then .exc else .retFalse)
      | some (nl5, disc3) =>
        let st := { st with discardedCidrs := st.discardedCidrs ++ disc3 }
        let chunkSize :=
          if nl5.length ≤ 100 then nl5.length else findBalancedChunkSize nl5.length
        let ranges := nl5.map getFirstLastIpCidr
        let firstChunks := splitList (ranges.map Prod.fst) chunkSize
        ({ st with
            cidrs := nl5,
            listChunks := splitList nl5 chunkSize,
            firstIpChunks := firstChunks,
            lastIpChunks := splitList (ranges.map Prod.snd) chunkSize,
            listIndex := firstChunks.map (fun c => c.headD 0) }, .retTrue)

/-- Model of `UnlimitedIPList.__init__` (construction from a list). -/
def construct (cfg : Config) (input : List Str) : IPListState × PyRes :=
  processList cfg emptyState input true []

/-- Model of `UnlimitedIPList.set_ip_networks_list`. -/
def setIpNetworksList (cfg : Config) (st : IPListState) (l : List Str) :
    IPListState × PyRes :=
  processList cfg (clearLists st true) l true []

/-- Linear scan of one chunk in `_find_cidr_overlap`: the three chunk
lists are parallel (equal length by construction), indexed together. -/
def scanChunkGo (names : List Str) (ls : List Nat) (cf cl : Nat) :
    Nat → List Nat → Option Str
  | _, [] => none
  | i, f :: rest =>
    if ipRangesOverlap cf cl f (ls.getD i 0) then some (names.getD i [])
    else scanChunkGo names ls cf cl (i + 1) rest

/-- Scan a whole chunk (by chunk position) for a range intersection. -/
def scanChunkAt (st : IPListState) (r : Nat) (cf cl : Nat) : Option Str :=
  scanChunkGo (st.listChunks.getD r []) (st.lastIpChunks.getD r []) cf cl 0
    (st.firstIpChunks.getD r [])

/-- Neighbour-chunk scan of `_find_cidr_overlap` (the body of
`for offset in [-1, 1]`): scan chunk `idx` only when
`0 <= idx < len(self.__first_ip_chunks)`. -/
def probeTryIdx (st : IPListState) (cf cl : Nat) (idx : Int) : Option Str :=
  if 0 ≤ idx ∧ idx < (st.firstIpChunks.length : Int) then
    scanChunkAt st idx.toNat cf cl
  else none

/-- Model of `UnlimitedIPList._find_cidr_overlap`: bisect the chunk index
(clamped at 0), scan that chunk, then the previous and next chunks;
`some` is the conflicting stored CIDR, `none` is the `False` result. -/
def findCidrOverlap (st : IPListState) (cidr : Str) : Option Str :=
  if st.cidrs = [] then none
  else
    let fl := getFirstLastIpCidr (normalizeCidrSuffix cidr)
    let r0 : Int := (bisectRight st.listIndex fl.1 : Int) - 1
    let r : Nat := if r0 < 0 then 0 else r0.toNat
    match scanChunkAt st r fl.1 fl.2 with
    | some c => some c
    | none =>
      match probeTryIdx st fl.1 fl.2 ((r : Int) - 1) with
      | some c => some c
      | none => probeTryIdx st fl.1 fl.2 ((r : Int) + 1)

/-- Result of `test_is_valid_ip_network`: raised exception (strict mode),
`False`, or the validated suffixed CIDR. -/
inductive TestRes
  | exc
  | fail
  | pass (c : Str)
deriving DecidableEq, Repr

/-- Model of `UnlimitedIPList.test_is_valid_ip_network` on a string
argument. -/
def testIsValidIpNetwork (cfg : Config) (st : IPListState) (ipaddr : Str) :
    TestRes :=
  let cidr := normalizeCidrSuffix (pyStrip ipaddr)
  if !isValidCidr cidr true then (if cfg.raiseOnError then .exc else .fail)
  else if cidr ∈ st.cidrs then (if cfg.raiseOnError then .exc else .fail)
  else
    match findCidrOverlap st cidr with
    | some _ => if cfg.raiseOnError then .exc else .fail
    | none => .pass cidr

/-- Result of a mutating operation: returned boolean or raised
exception. -/
inductive MutRes
  | ok (b : Bool)
  | exc
deriving DecidableEq, Repr

/-- Model of `UnlimitedIPList.add_ip_network` on a string argument. -/
def addIpNetwork (cfg : Config) (st : IPListState) (ipaddr : Str) :
    IPListState × MutRes :=
  let st := { st with discardedCidrs := [] }
  let c0 := pyStrip ipaddr
  let c1? := if cfg.normalizeInvalidCidr then getValidCidr c0 true else some c0
  match c1? with
  | none => ({ st with discardedCidrs := st.discardedCidrs ++ [pyStrip ipaddr] }, .ok false)
  | some c1 =>
    match testIsValidIpNetwork cfg st c1 with
    | .exc => (st, .exc)
    | .fail => ({ st with discardedCidrs := st.discardedCidrs ++ [pyStrip ipaddr] }, .ok false)
    | .pass cand =>
      let st := { st with cidrs := st.cidrs ++ [cand] }
      ((processList cfg st st.cidrs false st.discardedCidrs).1, .ok true)

/-- The per-item loop of `add_ip_networks_list`; the boolean is the
exception flag (a strict-mode failure aborts the loop mid-way, with the
canonical list already extended by the items accepted so far). -/
def addListGo (cfg : Config) (st : IPListState) : List Str → IPListState × Bool
  | [] => (st, false)
  | ip :: rest =>
    let c0 := pyStrip ip
    let c1? := if cfg.normalizeInvalidCidr then getValidCidr c0 true else some c0
    match c1? with
    | none =>
      addListGo cfg { st with discardedCidrs := st.discardedCidrs ++ [pyStrip ip] } rest
    | some c1 =>
      if c1 = [] then
        addListGo cfg { st with discardedCidrs := st.discardedCidrs ++ [pyStrip ip] } rest
      else
        match testIsValidIpNetwork cfg st c1 with
        | .exc => (st, true)
        | .fail =>
          addListGo cfg { st with discardedCidrs := st.discardedCidrs ++ [pyStrip ip] } rest
        | .pass cand => addListGo cfg { st with cidrs := st.cidrs ++ [cand] } rest

/-- Model of `UnlimitedIPList.add_ip_networks_list` on a list of
strings. -/
def addIpNetworksList (cfg : Config) (st : IPListState) (l : List Str) :
    IPListState × MutRes :=
  let st := { st with discardedCidrs := [] }
  match addListGo cfg st l with
  | (st1, true) => if cfg.raiseOnError then (st1, .exc) else (st1, .ok false)
  | (st1, false) =>
    ((processList cfg st1 st1.cidrs true st1.discardedCidrs).1, .ok true)

/-- Model of `UnlimitedIPList.remove_ip_network` on a string argument. -/
def removeIpNetwork (cfg : Config) (st : IPListState) (ipaddr : Str) :
    IPListState × MutRes :=
  if st.cidrs = [] then (st, .ok false)
  else
    let ip := normalizeCidrSuffix (pyStrip ipaddr)
    if ip ≠ [] ∧ ip ∈ st.cidrs then
      let st := { st with cidrs := st.cidrs.erase ip }
      ((processList cfg st st.cidrs false []).1, .ok true)
    else (st, .ok false)

/-- The per-item loop of `remove_ip_networks_list`. -/
def removeListGo (st : IPListState) : List Str → IPListState
  | [] => st
  | ip :: rest =>
    let i := normalizeCidrSuffix (pyStrip ip)
    if i ≠ [] ∧ i ∈ st.cidrs then
      removeListGo { st with cidrs := st.cidrs.erase i } rest
    else removeListGo st rest

/-- Model of `UnlimitedIPList.remove_ip_networks_list`. -/
def removeIpNetworksList (cfg : Config) (st : IPListState) (l : List Str) :
    IPListState × MutRes :=
  if st.cidrs = [] then (st, .ok false)
  else
    let st1 := removeListGo st l
    ((processList cfg st1 st1.cidrs false []).1, .ok true)

/-- Query argument of `__call__` / `check_ipaddr`: a string or an
integer. -/
inductive CallInput
  | str (s : Str)
  | int (n : Int)
deriving DecidableEq, Repr

/-- Result of `__call__`: the matching stored CIDR, `False`, or a raised
`UnlimitedIPListException`. -/
inductive CallResult
  | found (c : Str)
  | noMatch
  | err
deriving DecidableEq, Repr

/-- The chunk position `__call__` actually consults: the raw
`bisect_right(list_index, iplong) - 1`, with a negative value resolved by
Python's negative indexing (counted from the end of the chunk list). -/
def callSelectedChunk (st : IPListState) (iplong : Int) : Int :=
  let r : Int := (bisectRight st.listIndex iplong : Int) - 1
  if 0 ≤ r then r else r + (st.firstIpChunks.length : Int)

/-- Model of `UnlimitedIPList.__call__` (also exposed as
`check_ipaddr`).  Index accesses mirror Python semantics: negative
indices wrap, out-of-range accesses raise (escalated to `err` in strict
mode, `noMatch` otherwise), and the two containment comparisons
short-circuit. -/
def call (cfg : Config) (st : IPListState) (inp : CallInput) : CallResult :=
  if st.cidrs = [] then .noMatch
  else
    let iplong? : Option Int :=
      match inp with
      | .int n => some n
      | .str s => (ipToInt (pyStrip s)).map Int.ofNat
    match iplong? with
    | none => if cfg.raiseOnError then .err else .noMatch
    | some iplong =>
      if iplong ≤ 0 then (if cfg.raiseOnError then .err else .noMatch)
      else
        let rIdx := callSelectedChunk st iplong
        match pyGet st.firstIpChunks rIdx with
        | none => if cfg.raiseOnError then .err else .noMatch
        | some fChunk =>
          let li : Int := (bisectRight fChunk iplong : Int) - 1
          let network? : Option Str :=
            match pyGet st.listChunks rIdx with
            | none => none
            | some chunk => pyGet chunk li
          match pyGet fChunk li with
          | none => if cfg.raiseOnError then .err else .noMatch
          | some fv =>
            if iplong < (fv : Int) then .noMatch
            else
              match (pyGet st.lastIpChunks rIdx).bind (fun c => pyGet c li) with
              | none => if cfg.raiseOnError then .err else .noMatch
              | some lv =>
                if iplong ≤ (lv : Int) then
                  match network? with
                  | some c => .found c
                  | none => .noMatch
                else .noMatch

/-- The chunk-size expression of `__process_list` (line 412):
`len(new_list) if len(new_list) <= 100 else __find_balanced_chunk_size(len(new_list))`. -/
def chunkSizeFor (n : Nat) : Nat :=
  if n ≤ 100 then n else findBalancedChunkSize n 100 5000

theorem fbGo_step (n rem c best : Nat) (bd : Option Nat) :
    fbGo n (rem + 1) c best bd =
      if chunkDiff n c ≤ 1 then c
      else
        if (match bd with
            | none => true
            | some b => decide (chunkDiff n c < b)) then
          fbGo n rem (c + 1) c (some (chunkDiff n c))
        else fbGo n rem (c + 1) best bd := rfl

theorem fbGo_found (n : Nat) : ∀ (rem c best : Nat) (bd : Option Nat) (j : Nat),
    c ≤ j → j < c + rem → chunkDiff n j ≤ 1 →
    (∀ i, c ≤ i → i < j → 2 ≤ chunkDiff n i) →
    fbGo n rem c best bd = j := by
  intro rem
  induction rem with
  | zero => intro c best bd j h1 h2 _ _; omega
  | succ rem ih =>
    intro c best bd j h1 h2 h3 h4
    by_cases hc : chunkDiff n c ≤ 1
    · have hjc : j = c := by
        by_contra hne
        have hlt : c < j := lt_of_le_of_ne h1 (Ne.symm hne)
        have := h4 c le_rfl hlt
        omega
      subst hjc
      simp [fbGo, hc]
    · have hcj : c < j := by
        rcases Nat.lt_or_ge c j with h | h
        · exact h
        · have : j = c := by omega
          exact absurd (this ▸ h3) hc
      have step : ∀ b₂ bd₂, fbGo n rem (c + 1) b₂ bd₂ = j :=
        fun b₂ bd₂ => ih (c + 1) b₂ bd₂ j hcj (by omega) h3
          (fun i hi1 hi2 => h4 i (by omega) hi2)
      simp only [fbGo, hc, if_false]
      split
      · exact step _ _
      · exact step _ _

theorem fbGo_min (n : Nat) : ∀ (rem c best d : Nat),
    chunkDiff n best = d → 1 ≤ best → best < c →
    (∀ i, 1 ≤ i → i < c → d ≤ chunkDiff n i) →
    (∀ i, c ≤ i → i < c + rem → ¬ chunkDiff n i ≤ 1) →
    2 ≤ d →
    1 ≤ fbGo n rem c best (some d) ∧ fbGo n rem c best (some d) < c + rem ∧
      ∀ i, 1 ≤ i → i < c + rem →
        chunkDiff n (fbGo n rem c best (some d)) ≤ chunkDiff n i := by
  intro rem
  induction rem with
  | zero =>
    intro c best d hd h1 h2 h3 _ _
    simp only [fbGo]
    exact ⟨h1, by omega, fun i hi1 hi2 => by
      rw [hd]; exact h3 i hi1 (by omega)⟩
  | succ rem ih =>
    intro c best d hd h1 h2 h3 h4 hd2
    have hnc : ¬ chunkDiff n c ≤ 1 := h4 c le_rfl (by omega)
    by_cases hlt : chunkDiff n c < d
    · have hres := ih (c + 1) c (chunkDiff n c) rfl (by omega) (by omega)
        (fun i hi1 hi2 => by
          rcases Nat.lt_or_ge i c with h | h
          · exact le_trans (le_of_lt hlt) (h3 i hi1 h)
          · have hic : i = c := by omega
            subst hic; exact le_rfl)
        (fun i hi1 hi2 => h4 i (by omega) (by omega)) (by omega)
      have heq : fbGo n (rem + 1) c best (some d) =
          fbGo n rem (c + 1) c (some (chunkDiff n c)) := by
        simp [fbGo, hnc, hlt]
      rw [heq]
      have h21 := hres.2.1
      exact ⟨hres.1, by omega, fun i hi1 hi2 => hres.2.2 i hi1 (by omega)⟩
    · have hres := ih (c + 1) best d hd h1 (by omega)
        (fun i hi1 hi2 => by
          rcases Nat.lt_or_ge i c with h | h
          · exact h3 i hi1 h
          · have hic : i = c := by omega
            subst hic; omega)
        (fun i hi1 hi2 => h4 i (by omega) (by omega)) hd2
      have heq : fbGo n (rem + 1) c best (some d) =
          fbGo n rem (c + 1) best (some d) := by
        simp [fbGo, hnc, hlt]
      rw [heq]
      have h21 := hres.2.1
      exact ⟨hres.1, by omega, fun i hi1 hi2 => hres.2.2 i hi1 (by omega)⟩

/-- C10: chunk size selection.  When the surviving count is at most 100
the chunk size is the count itself; otherwise the loop over sizes 1..5000
returns the first size whose difference `abs(C - ceil(n/C))` is at most 1,
and if no size achieves that it returns a size minimising the
difference. -/
theorem chunk_size_selection (n : Nat) :
    (n ≤ 100 → chunkSizeFor n = n) ∧
    (100 < n → (∃ c, 1 ≤ c ∧ c ≤ 5000 ∧ chunkDiff n c ≤ 1) →
      1 ≤ chunkSizeFor n ∧ chunkSizeFor n ≤ 5000 ∧
      chunkDiff n (chunkSizeFor n) ≤ 1 ∧
      ∀ i, 1 ≤ i → i < chunkSizeFor n → 2 ≤ chunkDiff n i) ∧
    (100 < n → (∀ c, 1 ≤ c → c ≤ 5000 → 2 ≤ chunkDiff n c) →
      1 ≤ chunkSizeFor n ∧ chunkSizeFor n ≤ 5000 ∧
      ∀ c, 1 ≤ c → c ≤ 5000 → chunkDiff n (chunkSizeFor n) ≤ chunkDiff n c) := by
  refine ⟨fun h => by simp [chunkSizeFor, h], ?_, ?_⟩
  · intro h100 hex
    have hn : ¬ n ≤ 100 := by omega
    have hun : chunkSizeFor n = fbGo n 5000 1 1 none := by
      simp [chunkSizeFor, findBalancedChunkSize, hn]
    classical
    have hPex : ∃ j, 1 ≤ j ∧ j ≤ 5000 ∧ chunkDiff n j ≤ 1 := hex
    have hj := Nat.find_spec hPex
    have hmin : ∀ i, 1 ≤ i → i < Nat.find hPex → 2 ≤ chunkDiff n i := by
      intro i hi1 hi2
      have hni := Nat.find_min hPex hi2
      have hile : i ≤ 5000 := le_trans (le_of_lt hi2) hj.2.1
      by_contra hcon
      exact hni ⟨hi1, hile, by omega⟩
    have hfound : fbGo n 5000 1 1 none = Nat.find hPex :=
      fbGo_found n 5000 1 1 none (Nat.find hPex) hj.1 (by omega) hj.2.2 hmin
    rw [hun, hfound]
    exact ⟨hj.1, hj.2.1, hj.2.2, hmin⟩
  · intro h100 hall
    have hn : ¬ n ≤ 100 := by omega
    have hun : chunkSizeFor n = fbGo n 5000 1 1 none := by
      simp [chunkSizeFor, findBalancedChunkSize, hn]
    have h1 : ¬ chunkDiff n 1 ≤ 1 := by
      have := hall 1 le_rfl (by omega)
      omega
    have hstep : fbGo n 5000 1 1 none = fbGo n 4999 2 1 (some (chunkDiff n 1)) := by
      rw [show (5000 : Nat) = 4999 + 1 from rfl, fbGo_step]
      simp [h1]
    have hres := fbGo_min n 4999 2 1 (chunkDiff n 1) rfl le_rfl (by omega)
      (fun i hi1 hi2 => by
        have hic : i = 1 := by omega
        subst hic; exact le_rfl)
      (fun i hi1 hi2 => by
        have := hall i (by omega) (by omega)
        omega)
      (by have := hall 1 le_rfl (by omega); omega)
    rw [hun, hstep]
    have h21 := hres.2.1
    exact ⟨hres.1, by omega, fun c hc1 hc2 => hres.2.2 c hc1 (by omega)⟩

theorem insertSorted_ne_nil (le : α → α → Bool) (x : α) (l : List α) :
    insertSorted le x l ≠ [] := by
  cases l with
  | nil => simp [insertSorted]
  | cons y ys =>
    simp only [insertSorted]
    split <;> simp

theorem sortBy_eq_nil_iff (le : α → α → Bool) (l : List α) :
    sortBy le l = [] ↔ l = [] := by
  cases l with
  | nil => simp [sortBy]
  | cons x xs =>
    simp only [sortBy]
    exact ⟨fun h => absurd h (insertSorted_ne_nil le x (sortBy le xs)),
      fun h => nomatch h⟩

/-- The greedy earliest-start-wins scan exactly as worded in the
specification: after sorting ascending by range-start, scan left to
right keeping a running last-accepted-end; an entry whose range-start is
at most the running end is discarded (appended to the discard log), any
other entry is kept and the running end becomes that entry's range-end.
(Stated from the spec's words, for comparison with
`removeOverlappingCidrs`, which is translated from the source.) -/
def specGreedyScan : Option Nat → List (Str × Nat × Nat) → List Str × List Str
  | _, [] => ([], [])
  | some e, (c, f, l) :: rest =>
    if f ≤ e then
      let p := specGreedyScan (some e) rest
      (p.1, c :: p.2)
    else
      let p := specGreedyScan (some l) rest
      (c :: p.1, p.2)
  | none, (c, _, l) :: rest =>
    let p := specGreedyScan (some l) rest
    (c :: p.1, p.2)

/-- Spec-worded overlap removal: sort ascending by range-start, then run
the greedy scan with no initial running end. -/
def specRemoveOverlaps (l : List Str) : List Str × List Str :=
  specGreedyScan none
    (sortBy (fun a b => decide (a.2.1 ≤ b.2.1)) (l.map fun c => (c, getFirstLastIpCidr c)))

theorem removeOvGo_eq_specScan (e : Nat) (l : List (Str × Nat × Nat)) :
    removeOvGo e l = specGreedyScan (some e) l := by
  induction l generalizing e with
  | nil => rfl
  | cons x rest ih =>
    obtain ⟨c, f, lst⟩ := x
    simp only [removeOvGo, specGreedyScan]
    split <;> simp [ih]

/-- C7: `_remove_overlapping_cidrs` implements exactly the greedy
earliest-start-wins policy worded in the spec (same survivors and the
same discard log, in order), and the entry with the smallest range-start
(the head of the stably sorted list) is always kept, first. -/
theorem remove_overlapping_greedy (l : List Str) (h : l ≠ []) :
    removeOverlappingCidrs l = some (specRemoveOverlaps l) ∧
    ∀ x rest,
      sortBy (fun a b => decide (a.2.1 ≤ b.2.1))
          (l.map fun c => (c, getFirstLastIpCidr c)) = x :: rest →
      ∃ k d, removeOverlappingCidrs l = some (x.1 :: k, d) := by
  have hmap : (l.map fun c => (c, getFirstLastIpCidr c)) ≠ [] := by
    cases l with
    | nil => exact absurd rfl h
    | cons a as => simp
  rcases hs : sortBy (fun a b => decide (a.2.1 ≤ b.2.1))
      (l.map fun c => (c, getFirstLastIpCidr c)) with _ | ⟨⟨c, f, lst⟩, rest⟩
  · exact absurd ((sortBy_eq_nil_iff _ _).mp hs) hmap
  · constructor
    · simp only [removeOverlappingCidrs, specRemoveOverlaps, hs,
        specGreedyScan, removeOvGo_eq_specScan]
    · intro x r hx
      rw [hs] at hx
      obtain ⟨hx1, hx2⟩ := List.cons.inj hx
      subst hx2
      refine ⟨(removeOvGo lst rest).1, (removeOvGo lst rest).2, ?_⟩
      simp only [removeOverlappingCidrs, hs, ← hx1]

/-- Witness for `remove_overlapping_greedy` at a concrete two-entry
list whose second entry overlaps the first. -/
theorem remove_overlapping_greedy_witness :
    removeOverlappingCidrs ["10.0.0.0/8".data, "10.64.0.0/10".data] =
      some (specRemoveOverlaps ["10.0.0.0/8".data, "10.64.0.0/10".data]) :=
  (remove_overlapping_greedy _ (by decide)).1

/-- Witness for `chunk_size_selection`: below the threshold the count is
used; at 101 entries the first size with difference at most 1 is found. -/
theorem chunk_size_selection_witness :
    chunkSizeFor 50 = 50 ∧
    (1 ≤ chunkSizeFor 101 ∧ chunkSizeFor 101 ≤ 5000 ∧
      chunkDiff 101 (chunkSizeFor 101) ≤ 1 ∧
      ∀ i, 1 ≤ i → i < chunkSizeFor 101 → 2 ≤ chunkDiff 101 i) :=
  ⟨(chunk_size_selection 50).1 (by decide),
    (chunk_size_selection 101).2.1 (by decide) ⟨10, by decide, by decide, by decide⟩⟩

/-- C5: the address/integer round trip fails at the boundary value
`2^32`.  The text `0:0:0:0:0:1:0:0` is a representable IPv6 address
whose integer is exactly `2^32`, but `int_to_ip` tests
`iplong <= 2**32` (comment `# MAX IPv4`; the largest IPv4 value is
`2^32 - 1`), takes the IPv4 branch, `struct.pack(">L", 2**32)` raises,
and the method returns `None` — so the round trip required by the claim
produces no address at all for this representable value. -/
theorem int_to_ip_roundtrip_gap :
    ipToInt "0:0:0:0:0:1:0:0".data = some (2 ^ 32) ∧
    intToIp (2 ^ 32) = none ∧
    (ipToInt "0:0:0:0:0:1:0:0".data).bind intToIp = none ∧
    2 ^ 32 < 2 ^ 128 := by decide

/-- C6: canonical normalization is not idempotent.  For `::1/128` the
normalized network integer is 1, `int_to_ip 1` renders the IPv4 text
`0.0.0.1`, and `compress_ipv6` turns it into the malformed
`0.0.0.1::`, so `get_valid_cidr("::1/128", normalize=True)` returns
`0.0.0.1::/128` — which its own validator rejects and whose second
normalization returns `None` instead of the same output. -/
theorem get_valid_cidr_not_idempotent :
    getValidCidr "::1/128".data true = some "0.0.0.1::/128".data ∧
    (getValidCidr "::1/128".data true).bind (fun t => getValidCidr t true) = none ∧
    isValidCidr "0.0.0.1::/128".data true = false := by decide

/-- C4 counterexample: with `raise_on_error=True` and a nonempty list,
an unparseable query string makes `__call__` raise
`UnlimitedIPListException` (the guarded `raise` for an invalid address is
re-raised by the method's own handler), contradicting the claim that a
query never raises regardless of mode. -/
theorem lookup_unparseable_raises :
    ipToInt (pyStrip "not-an-ip".data) = none ∧
    call ⟨false, true⟩ (construct ⟨false, true⟩ ["10.0.0.0/8".data]).1
      (.str "not-an-ip".data) = .err := by decide

/-- C4 (amended): an unparseable query string yields no-match without
raising when `raise_on_error=False`; when `raise_on_error=True` and the
canonical list is nonempty, the lookup instead raises
`UnlimitedIPListException`. -/
theorem lookup_unparseable_behavior (cfg : Config) (st : IPListState) (s : Str)
    (hparse : ipToInt (pyStrip s) = none) :
    (cfg.raiseOnError = false → call cfg st (.str s) = .noMatch) ∧
    (cfg.raiseOnError = true → st.cidrs ≠ [] → call cfg st (.str s) = .err) := by
  constructor
  · intro hro
    by_cases hc : st.cidrs = []
    · simp [call, hc]
    · simp [call, hc, hparse, hro]
  · intro hro hne
    simp [call, hne, hparse, hro]

/-- Witness for `lookup_unparseable_behavior` at concrete states and a
concrete unparseable query. -/
theorem lookup_unparseable_behavior_witness :
    call ⟨false, false⟩ emptyState (.str "nope".data) = .noMatch ∧
    call ⟨false, true⟩ (construct ⟨false, true⟩ ["10.0.0.0/8".data]).1
      (.str "nope".data) = .err :=
  ⟨(lookup_unparseable_behavior ⟨false, false⟩ emptyState _ (by decide)).1 rfl,
   (lookup_unparseable_behavior ⟨false, true⟩ _ _ (by decide)).2 rfl (by decide)⟩

/-- C1 counterexample: `0.0.0.0/8` is stored with range `[0, 2^24 - 1]`,
the query integer 0 lies inside that range, yet the lookup returns
no-match, because `__call__` rejects every query integer `iplong <= 0`
before bisecting. -/
theorem lookup_zero_query_miss :
    (construct ⟨false, false⟩ ["0.0.0.0/8".data]).1.cidrs = ["0.0.0.0/8".data] ∧
    getFirstLastIpCidr "0.0.0.0/8".data = (0, 2 ^ 24 - 1) ∧
    call ⟨false, false⟩ (construct ⟨false, false⟩ ["0.0.0.0/8".data]).1
      (.int 0) = .noMatch := by decide

/-- A strict-mode instance over the single network `10.0.0.0/8`, used by
several concrete counterexamples. -/
def exStStrict : IPListState := (construct ⟨false, true⟩ ["10.0.0.0/8".data]).1

/-- C8 counterexample: two mutations fail without retaining the prior
snapshot.  In strict mode, `add_ip_networks_list` appends accepted items
to the canonical list as it iterates; when a later item fails, the raised
exception aborts the loop before the final rebuild, so the operation
fails (exception) while the canonical list has already been extended and
the chunk structures are left stale.  And `set_ip_networks_list` clears
the prior snapshot before processing, so a failing call (here: no valid
entry survives) ends with the empty cleared state, not the prior
one-entry snapshot. -/
theorem bulk_add_partial_mutation :
    exStStrict.cidrs = ["10.0.0.0/8".data] ∧
    (addIpNetworksList ⟨false, true⟩ exStStrict ["20.0.0.0/8".data, "x".data]).2 = .exc ∧
    (addIpNetworksList ⟨false, true⟩ exStStrict ["20.0.0.0/8".data, "x".data]).1.cidrs =
      ["10.0.0.0/8".data, "20.0.0.0/8".data] ∧
    (addIpNetworksList ⟨false, true⟩ exStStrict ["20.0.0.0/8".data, "x".data]).1.listChunks =
      [["10.0.0.0/8".data]] ∧
    (setIpNetworksList ⟨false, true⟩ exStStrict ["x".data]).2 = .retFalse ∧
    (setIpNetworksList ⟨false, true⟩ exStStrict ["x".data]).1.cidrs = [] ∧
    (setIpNetworksList ⟨false, true⟩ exStStrict ["x".data]).1.listChunks = [] ∧
    (setIpNetworksList ⟨false, true⟩ exStStrict ["x".data]).1.listIndex = [] := by decide

/-- C8 (amended): atomicity holds only for the single-entry mutations
and the bulk remove.  A failing `add_ip_network` leaves the canonical
list and all four index structures unchanged (only the discard log may
change), and a failing `remove_ip_network` / `remove_ip_networks_list`
leaves the state entirely unchanged.  A failing `set_ip_networks_list`
does NOT retain the prior snapshot: it clears first and publishes the
empty cleared state (last conjunct; the counterexample exhibits a
non-empty prior snapshot lost this way, and the strict-mode bulk add
aborting mid-loop with the list extended and the chunks stale). -/
theorem mutation_failure_atomicity (cfg : Config) (st : IPListState)
    (ip : Str) (l : List Str) :
    ((addIpNetwork cfg st ip).2 ≠ .ok true →
      (addIpNetwork cfg st ip).1.cidrs = st.cidrs ∧
      (addIpNetwork cfg st ip).1.listChunks = st.listChunks ∧
      (addIpNetwork cfg st ip).1.firstIpChunks = st.firstIpChunks ∧
      (addIpNetwork cfg st ip).1.lastIpChunks = st.lastIpChunks ∧
      (addIpNetwork cfg st ip).1.listIndex = st.listIndex) ∧
    ((removeIpNetwork cfg st ip).2 ≠ .ok true → (removeIpNetwork cfg st ip).1 = st) ∧
    ((removeIpNetworksList cfg st l).2 ≠ .ok true →
      (removeIpNetworksList cfg st l).1 = st) ∧
    ((setIpNetworksList cfg st l).2 ≠ .retTrue →
      (setIpNetworksList cfg st l).1.cidrs = [] ∧
      (setIpNetworksList cfg st l).1.listChunks = [] ∧
      (setIpNetworksList cfg st l).1.firstIpChunks = [] ∧
      (setIpNetworksList cfg st l).1.lastIpChunks = [] ∧
      (setIpNetworksList cfg st l).1.listIndex = []) := by
  refine ⟨?_, ?_, ?_, ?_⟩
  · intro hfail
    unfold addIpNetwork at hfail ⊢
    rcases hval : (if cfg.normalizeInvalidCidr then getValidCidr (pyStrip ip) true
        else some (pyStrip ip)) with _ | c1
    · simp [hval]
    · simp only [hval] at hfail ⊢
      rcases htest : testIsValidIpNetwork cfg
          { st with discardedCidrs := [] } c1 with _ | _ | cand
      · simp [htest]
      · simp [htest]
      · simp [htest] at hfail
  · intro hfail
    unfold removeIpNetwork at hfail ⊢
    by_cases hc : st.cidrs = []
    · simp [hc]
    · simp only [hc, if_false] at hfail ⊢
      by_cases hin : normalizeCidrSuffix (pyStrip ip) ≠ [] ∧
          normalizeCidrSuffix (pyStrip ip) ∈ st.cidrs
      · simp [hin] at hfail
      · simp [hin]
  · intro hfail
    unfold removeIpNetworksList at hfail ⊢
    by_cases hc : st.cidrs = []
    · simp [hc]
    · simp [hc] at hfail
  · intro hfail
    unfold setIpNetworksList at hfail ⊢
    simp only [processList] at hfail ⊢
    by_cases h1 : ((dedupFirst l).map pyStrip).filter (fun s => s ≠ []) = []
    · rw [if_pos h1]
      exact ⟨rfl, rfl, rfl, rfl, rfl⟩
    · rw [if_neg h1] at hfail ⊢
      set p1 := (if cfg.normalizeInvalidCidr then normalizeAndRemoveInvalidCidr
          (((dedupFirst l).map pyStrip).filter (fun s => s ≠ []))
        else (normalizeCidrList
          (((dedupFirst l).map pyStrip).filter (fun s => s ≠ [])), [])) with hp1
      set p2 := discardInvalidCidr p1.1 with hp2
      by_cases h2 : p2.1 = []
      · rw [if_pos h2]
        exact ⟨rfl, rfl, rfl, rfl, rfl⟩
      · rw [if_neg h2] at hfail ⊢
        rw [if_pos trivial] at hfail ⊢
        set nl4 := sortBy (fun a b => decide (sortKeyOf a ≤ sortKeyOf b))
          ((sortBy strLeB (dedupFirst p2.1)).filter (fun s => s ≠ [])) with hnl4
        rcases hro : removeOverlappingCidrs nl4 with _ | ⟨nl5, disc3⟩
        · simp only [hro]
          exact ⟨rfl, rfl, rfl, rfl, rfl⟩
        · simp only [hro] at hfail
          exact absurd rfl hfail

/-- Witness for `mutation_failure_atomicity`: a rejected overlapping add
and a rejected remove of an absent entry leave the state unchanged. -/
theorem mutation_failure_atomicity_witness :
    (addIpNetwork ⟨false, false⟩ exStStrict "10.1.0.0/16".data).1.cidrs =
      exStStrict.cidrs ∧
    (removeIpNetwork ⟨false, false⟩ exStStrict "99.0.0.0/8".data).1 = exStStrict ∧
    (setIpNetworksList ⟨false, false⟩ exStStrict ["x".data]).1.cidrs = [] :=
  ⟨((mutation_failure_atomicity ⟨false, false⟩ exStStrict "10.1.0.0/16".data []).1
      (by decide)).1,
   (mutation_failure_atomicity ⟨false, false⟩ exStStrict "99.0.0.0/8".data []).2.1
      (by decide),
   ((mutation_failure_atomicity ⟨false, false⟩ exStStrict "x".data
      ["x".data]).2.2.2 (by decide)).1⟩

/-- A 101-entry list `10.0.i.0/24`, which the rebuild splits into 11
chunks of size 10. -/
def exBigList : List Str :=
  (List.range 101).map (fun i => "10.0.".data ++ renderNat i ++ ".0/24".data)

/-- The state built from `exBigList`. -/
def exStBig : IPListState := (construct ⟨false, false⟩ exBigList).1

/-- C9 counterexample: the chunk selection of `__call__` is not clamped
to chunk 0.  On the 11-chunk index built from `exBigList`, the query
integer 1 precedes every chunk's first range-start, `bisect_right - 1`
is `-1`, and Python's negative indexing resolves it to the LAST chunk
(position 10), not chunk 0; the lookup then reports no-match. -/
theorem lookup_chunk_not_clamped :
    exStBig.listChunks.length = 11 ∧
    (∀ x ∈ exStBig.listIndex, (1 : Int) < (x : Int)) ∧
    callSelectedChunk exStBig 1 = 10 ∧
    call ⟨false, false⟩ exStBig (.int 1) = .noMatch := by decide

/-- First (network) integer of a stored CIDR's range. -/
def rangeFst (s : Str) : Nat := (getFirstLastIpCidr s).1

/-- Last (broadcast) integer of a stored CIDR's range. -/
def rangeLst (s : Str) : Nat := (getFirstLastIpCidr s).2

/-- Two stored entries have disjoint integer ranges. -/
def RangeDisjoint (a b : Str) : Prop :=
  rangeLst a < rangeFst b ∨ rangeLst b < rangeFst a

/-- The canonical list is strictly chained: each entry's range ends
before the next entry's range starts. -/
def Chained (l : List Str) : Prop :=
  l.Pairwise (fun a b => rangeLst a < rangeFst b)

/-- All pairs of distinct stored entries have disjoint ranges. -/
def RangesDisjoint (l : List Str) : Prop := l.Pairwise RangeDisjoint

theorem Chained.rangesDisjoint {l : List Str} (h : Chained l) : RangesDisjoint l :=
  h.imp (fun hab => Or.inl hab)

theorem or_ge_left (a b : Nat) : a ≤ a ||| b :=
  Nat.le_of_testBit fun i hi => by simp [Nat.testBit_lor, hi]

theorem range_fst_le_lst (s : Str) : rangeFst s ≤ rangeLst s := by
  unfold rangeFst rangeLst getFirstLastIpCidr
  rcases splitChar '/' s with _ | ⟨a, _ | ⟨b, _ | _⟩⟩ <;> try simp
  cases hp : parsePyInt b with
  | none => simp
  | some p =>
    cases hv : ipToInt a with
    | none => simp
    | some v =>
      simp only []
      split <;> split <;> first
        | exact or_ge_left _ _
        | simp

theorem mem_insertSorted {le : α → α → Bool} {x z : α} {l : List α} :
    z ∈ insertSorted le x l ↔ z = x ∨ z ∈ l := by
  induction l with
  | nil => simp [insertSorted]
  | cons y ys ih =>
    simp only [insertSorted]
    split
    · simp [or_comm, or_assoc, or_left_comm]
    · simp [ih]
      tauto

theorem mem_sortBy {le : α → α → Bool} {z : α} {l : List α} :
    z ∈ sortBy le l ↔ z ∈ l := by
  induction l with
  | nil => simp [sortBy]
  | cons y ys ih => simp [sortBy, mem_insertSorted, ih]

theorem insertSorted_perm (le : α → α → Bool) (x : α) (l : List α) :
    List.Perm (insertSorted le x l) (x :: l) := by
  induction l with
  | nil => rfl
  | cons a as ih =>
    simp only [insertSorted]
    split
    · rfl
    · exact (ih.cons a).trans (List.Perm.swap x a as)

theorem sortBy_perm (le : α → α → Bool) (l : List α) : List.Perm (sortBy le l) l := by
  induction l with
  | nil => rfl
  | cons y ys ih =>
    exact (insertSorted_perm le y (sortBy le ys)).trans (ih.cons y)

theorem insertSorted_key_pairwise {α : Type} (key : α → Nat) (x : α) (l : List α)
    (h : l.Pairwise (fun a b => key a ≤ key b)) :
    (insertSorted (fun a b => decide (key a ≤ key b)) x l).Pairwise
      (fun a b => key a ≤ key b) := by
  induction l with
  | nil => simp [insertSorted]
  | cons y ys ih =>
    simp only [insertSorted]
    by_cases hle : key x ≤ key y
    · simp only [hle, decide_eq_true_eq, if_pos]
      refine List.Pairwise.cons ?_ h
      intro z hz
      rcases List.mem_cons.mp hz with hz | hz
      · subst hz; exact hle
      · exact le_trans hle (List.rel_of_pairwise_cons h hz)
    · simp only [hle, decide_eq_true_eq, if_neg, not_false_iff]
      refine List.Pairwise.cons ?_ (ih (List.Pairwise.of_cons h))
      intro z hz
      rcases mem_insertSorted.mp hz with hz | hz
      · subst hz; omega
      · exact List.rel_of_pairwise_cons h hz

theorem sortBy_key_pairwise {α : Type} (key : α → Nat) (l : List α) :
    (sortBy (fun a b => decide (key a ≤ key b)) l).Pairwise
      (fun a b => key a ≤ key b) := by
  induction l with
  | nil => simp [sortBy]
  | cons y ys ih => exact insertSorted_key_pairwise key y _ ih

theorem removeOvGo_cons (e : Nat) (c : Str) (f lst : Nat)
    (rest : List (Str × Nat × Nat)) :
    removeOvGo e ((c, f, lst) :: rest) =
      if f ≤ e then ((removeOvGo e rest).1, c :: (removeOvGo e rest).2)
      else (c :: (removeOvGo lst rest).1, (removeOvGo lst rest).2) := by
  simp only [removeOvGo]

theorem removeOvGo_chain (l : List (Str × Nat × Nat))
    (hx : ∀ x ∈ l, x.2 = getFirstLastIpCidr x.1) :
    ∀ e, (∀ c ∈ (removeOvGo e l).1, e < rangeFst c) ∧ Chained (removeOvGo e l).1 := by
  induction l with
  | nil => intro e; simp [removeOvGo, Chained]
  | cons x rest ih =>
    obtain ⟨c, f, lst⟩ := x
    have hc : (f, lst) = getFirstLastIpCidr c := hx (c, f, lst) (by simp)
    have hfc : f = rangeFst c := by rw [rangeFst, ← hc]
    have hlc : lst = rangeLst c := by rw [rangeLst, ← hc]
    have hrest : ∀ x ∈ rest, x.2 = getFirstLastIpCidr x.1 :=
      fun x hx' => hx x (by simp [hx'])
    intro e
    rw [removeOvGo_cons]
    by_cases hfe : f ≤ e
    · simpa [hfe] using ih hrest e
    · simp only [hfe, if_false]
      have hscan := ih hrest lst
      have hflst : f ≤ lst := by
        rw [hfc, hlc]; exact range_fst_le_lst c
      constructor
      · intro z hz
        rcases List.mem_cons.mp hz with hz1 | hz2
        · subst hz1; omega
        · have := hscan.1 z hz2
          omega
      · refine List.Pairwise.cons ?_ hscan.2
        intro z hz
        have := hscan.1 z hz
        omega

theorem removeOverlapping_chained (l kept disc : List Str)
    (h : removeOverlappingCidrs l = some (kept, disc)) : Chained kept := by
  unfold removeOverlappingCidrs at h
  rcases hs : sortBy (fun a b => decide (a.2.1 ≤ b.2.1))
      (l.map fun c => (c, getFirstLastIpCidr c)) with _ | ⟨⟨c, f, lst⟩, rest⟩
  · simp [hs] at h
  · simp only [hs] at h
    simp only [Option.some.injEq, Prod.mk.injEq] at h
    have hmemAll : ∀ x, x ∈ sortBy (fun a b => decide (a.2.1 ≤ b.2.1))
        (l.map fun c => (c, getFirstLastIpCidr c)) → x.2 = getFirstLastIpCidr x.1 := by
      intro x hxr
      obtain ⟨y, _, hxy⟩ := List.mem_map.mp (mem_sortBy.mp hxr)
      rw [← hxy]
    have hmem : ∀ x ∈ rest, x.2 = getFirstLastIpCidr x.1 :=
      fun x hxr => hmemAll x (hs ▸ List.mem_cons_of_mem _ hxr)
    have hc : (f, lst) = getFirstLastIpCidr c := hmemAll (c, f, lst) (hs ▸ by simp)
    have hlc : lst = rangeLst c := by rw [rangeLst, ← hc]
    have hscan := removeOvGo_chain rest hmem lst
    have hkept : kept = c :: (removeOvGo lst rest).1 := h.1.symm
    rw [hkept]
    refine List.Pairwise.cons ?_ hscan.2
    intro z hz
    have := hscan.1 z hz
    omega

theorem getD_eq_getElem?_getD (l : List α) (i : Nat) (d : α) :
    l.getD i d = l[i]?.getD d := by
  rw [List.getD, List.get?_eq_getElem?]

theorem splitListAux_getD (k : Nat) (hk : 0 < k) :
    ∀ (fuel : Nat) (l : List α), l.length ≤ fuel → ∀ j,
      (splitListAux k fuel l).getD j [] = (l.drop (j * k)).take k := by
  intro fuel
  induction fuel with
  | zero =>
    intro l hl j
    have : l = [] := List.length_eq_zero.mp (by omega)
    subst this
    simp [splitListAux]
  | succ fuel ih =>
    intro l hl j
    cases l with
    | nil => simp [splitListAux]
    | cons x xs =>
      cases j with
      | zero => simp [splitListAux]
      | succ j =>
        have hlen : (List.drop k (x :: xs)).length ≤ fuel := by
          rw [List.length_drop]
          simp only [List.length_cons] at hl ⊢
          omega
        calc (splitListAux k (fuel + 1) (x :: xs)).getD (j + 1) []
            = (splitListAux k fuel ((x :: xs).drop k)).getD j [] := by
              simp [splitListAux]
          _ = (((x :: xs).drop k).drop (j * k)).take k := ih _ hlen j
          _ = ((x :: xs).drop ((j + 1) * k)).take k := by
              rw [List.drop_drop, Nat.succ_mul, Nat.add_comm k (j * k)]

theorem splitListAux_length_iff (k : Nat) (hk : 0 < k) :
    ∀ (fuel : Nat) (l : List α), l.length ≤ fuel → ∀ j,
      (j < (splitListAux k fuel l).length ↔ j * k < l.length) := by
  intro fuel
  induction fuel with
  | zero =>
    intro l hl j
    have : l = [] := List.length_eq_zero.mp (by omega)
    subst this
    simp [splitListAux]
  | succ fuel ih =>
    intro l hl j
    cases l with
    | nil => simp [splitListAux]
    | cons x xs =>
      cases j with
      | zero => simp [splitListAux]
      | succ j =>
        have hlen : (List.drop k (x :: xs)).length ≤ fuel := by
          rw [List.length_drop]
          simp only [List.length_cons] at hl ⊢
          omega
        have hs := ih ((x :: xs).drop k) hlen j
        rw [List.length_drop] at hs
        simp only [splitListAux, List.length_cons] at hs ⊢
        rw [Nat.succ_mul]
        omega

theorem splitList_getD (l : List α) (k : Nat) (hk : 0 < k) (j : Nat) :
    (splitList l k).getD j [] = (l.drop (j * k)).take k := by
  unfold splitList
  rw [if_neg (by omega)]
  exact splitListAux_getD k hk l.length l le_rfl j

theorem splitList_length_iff (l : List α) (k : Nat) (hk : 0 < k) (j : Nat) :
    j < (splitList l k).length ↔ j * k < l.length := by
  unfold splitList
  rw [if_neg (by omega)]
  exact splitListAux_length_iff k hk l.length l le_rfl j

theorem splitListAux_map (f : α → β) (k : Nat) :
    ∀ (fuel : Nat) (l : List α),
      splitListAux k fuel (l.map f) = (splitListAux k fuel l).map (List.map f) := by
  intro fuel
  induction fuel with
  | zero => intro l; simp [splitListAux]
  | succ fuel ih =>
    intro l
    cases l with
    | nil => simp [splitListAux]
    | cons x xs =>
      have h2 : (f x :: List.map f xs) = List.map f (x :: xs) := rfl
      simp only [List.map_cons]
      simp only [splitListAux]
      rw [h2, ← List.map_take, ← List.map_drop, ih, List.map_cons]

theorem splitList_map (f : α → β) (l : List α) (k : Nat) :
    splitList (l.map f) k = (splitList l k).map (List.map f) := by
  unfold splitList
  by_cases hk : k = 0
  · simp [hk]
  · simp only [hk, if_false, List.length_map]
    exact splitListAux_map f k l.length l

theorem sorted_getD_mono (a : List Nat) (hs : a.Pairwise (fun p q => p ≤ q))
    (i j : Nat) (hij : i ≤ j) (hj : j < a.length) : a.getD i 0 ≤ a.getD j 0 := by
  have hi : i < a.length := by omega
  rw [List.getD_eq_getElem a 0 hi, List.getD_eq_getElem a 0 hj]
  rcases Nat.eq_or_lt_of_le hij with h | h
  · subst h; exact le_rfl
  · have := (List.pairwise_iff_get.mp hs) ⟨i, hi⟩ ⟨j, hj⟩ h
    simpa [List.get_eq_getElem] using this

theorem bisectGo_spec (a : List Nat) (x : Int)
    (hs : a.Pairwise (fun p q => p ≤ q)) :
    ∀ (fuel lo hi : Nat), hi ≤ a.length → lo ≤ hi → hi - lo ≤ fuel →
      (∀ i, i < lo → (a.getD i 0 : Int) ≤ x) →
      (∀ i, hi ≤ i → i < a.length → x < (a.getD i 0 : Int)) →
      (∀ i, i < bisectGo a x fuel lo hi → (a.getD i 0 : Int) ≤ x) ∧
      (∀ i, bisectGo a x fuel lo hi ≤ i → i < a.length → x < (a.getD i 0 : Int)) ∧
      lo ≤ bisectGo a x fuel lo hi ∧ bisectGo a x fuel lo hi ≤ hi := by
  intro fuel
  induction fuel with
  | zero =>
    intro lo hi h1 h2 h3 h4 h5
    simp only [bisectGo]
    exact ⟨h4, fun i hi1 hi2 => h5 i (by omega) hi2, le_rfl, h2⟩
  | succ fuel ih =>
    intro lo hi h1 h2 h3 h4 h5
    by_cases hlh : lo < hi
    · have hmidlt : (lo + hi) / 2 < hi := by omega
      have hmidge : lo ≤ (lo + hi) / 2 := by omega
      by_cases hx : x < (a.getD ((lo + hi) / 2) 0 : Int)
      · have heq : bisectGo a x (fuel + 1) lo hi =
            bisectGo a x fuel lo ((lo + hi) / 2) := by
          show (if lo < hi then
              if x < ((a.getD ((lo + hi) / 2) 0 : Nat) : Int) then
                bisectGo a x fuel lo ((lo + hi) / 2)
              else bisectGo a x fuel ((lo + hi) / 2 + 1) hi
            else lo) = bisectGo a x fuel lo ((lo + hi) / 2)
          rw [if_pos hlh, if_pos hx]
        have hres := ih lo ((lo + hi) / 2) (by omega) (by omega) (by omega) h4
          (fun i hi1 hi2 => by
            have hmono : a.getD ((lo + hi) / 2) 0 ≤ a.getD i 0 :=
              sorted_getD_mono a hs _ i hi1 hi2
            have hcast : ((a.getD ((lo + hi) / 2) 0 : Nat) : Int) ≤
                ((a.getD i 0 : Nat) : Int) := by exact_mod_cast hmono
            omega)
        rw [heq]
        have hup := hres.2.2.2
        exact ⟨hres.1, hres.2.1, hres.2.2.1, by omega⟩
      · have heq : bisectGo a x (fuel + 1) lo hi =
            bisectGo a x fuel ((lo + hi) / 2 + 1) hi := by
          show (if lo < hi then
              if x < ((a.getD ((lo + hi) / 2) 0 : Nat) : Int) then
                bisectGo a x fuel lo ((lo + hi) / 2)
              else bisectGo a x fuel ((lo + hi) / 2 + 1) hi
            else lo) = bisectGo a x fuel ((lo + hi) / 2 + 1) hi
          rw [if_pos hlh, if_neg hx]
        have hres := ih ((lo + hi) / 2 + 1) hi h1 (by omega) (by omega)
          (fun i hi1 => by
            have hmono : a.getD i 0 ≤ a.getD ((lo + hi) / 2) 0 :=
              sorted_getD_mono a hs i _ (by omega) (by omega)
            have hcast : ((a.getD i 0 : Nat) : Int) ≤
                ((a.getD ((lo + hi) / 2) 0 : Nat) : Int) := by exact_mod_cast hmono
            omega)
          h5
        rw [heq]
        have hlo := hres.2.2.1
        exact ⟨hres.1, hres.2.1, by omega, hres.2.2.2⟩
    · have heq : bisectGo a x (fuel + 1) lo hi = lo := by
        show (if lo < hi then
            if x < ((a.getD ((lo + hi) / 2) 0 : Nat) : Int) then
              bisectGo a x fuel lo ((lo + hi) / 2)
            else bisectGo a x fuel ((lo + hi) / 2 + 1) hi
          else lo) = lo
        rw [if_neg hlh]
      rw [heq]
      exact ⟨h4, fun i hi1 hi2 => h5 i (by omega) hi2, le_rfl, h2⟩

theorem bisectRight_spec (a : List Nat) (x : Int)
    (hs : a.Pairwise (fun p q => p ≤ q)) :
    (∀ i, i < bisectRight a x → (a.getD i 0 : Int) ≤ x) ∧
    (∀ i, bisectRight a x ≤ i → i < a.length → x < (a.getD i 0 : Int)) ∧
    bisectRight a x ≤ a.length := by
  have h := bisectGo_spec a x hs (a.length + 1) 0 a.length le_rfl (by omega)
    (by omega) (fun i hi => by omega) (fun i hi1 hi2 => by omega)
  exact ⟨h.1, h.2.1, h.2.2.2⟩

theorem bisectRight_eq (a : List Nat) (x : Int)
    (hs : a.Pairwise (fun p q => p ≤ q)) (c : Nat) (hc : c ≤ a.length)
    (hle : ∀ i, i < c → (a.getD i 0 : Int) ≤ x)
    (hgt : ∀ i, c ≤ i → i < a.length → x < (a.getD i 0 : Int)) :
    bisectRight a x = c := by
  have h := bisectRight_spec a x hs
  by_contra hne
  rcases Nat.lt_or_ge (bisectRight a x) c with hlt | hge
  · have h1 := hle (bisectRight a x) hlt
    have h2 := h.2.1 (bisectRight a x) le_rfl (by omega)
    omega
  · have hcl : c < bisectRight a x := by omega
    have h1 := h.1 c hcl
    have h2 := hgt c le_rfl (by omega)
    omega

/-- Structural invariant of a built index: the canonical list is strictly
chained (globally sorted by range-start with pairwise disjoint ranges)
and the four auxiliary structures are exactly the chunked projections
that `__process_list` publishes for some positive chunk size. -/
def StructInv (st : IPListState) : Prop :=
  Chained st.cidrs ∧
  ∃ k, 0 < k ∧
    st.listChunks = splitList st.cidrs k ∧
    st.firstIpChunks = splitList (st.cidrs.map rangeFst) k ∧
    st.lastIpChunks = splitList (st.cidrs.map rangeLst) k ∧
    st.listIndex = st.firstIpChunks.map (fun c => c.headD 0)

theorem rangeFst_nil : rangeFst [] = 0 := rfl

theorem rangeLst_nil : rangeLst [] = 0 := rfl

theorem getD_eq_default (l : List α) (i : Nat) (d : α) (h : l.length ≤ i) :
    l.getD i d = d := by
  rw [getD_eq_getElem?_getD, List.getElem?_eq_none (by omega)]
  rfl

theorem getD_map_lt {f : α → β} (l : List α) (j : Nat) (h : j < l.length)
    (d : α) (e : β) : (l.map f).getD j e = f (l.getD j d) := by
  rw [List.getD_eq_getElem (l.map f) e (by simpa using h),
    List.getD_eq_getElem l d h, List.getElem_map]

theorem getD_map_rangeFst (L : List Str) (i : Nat) :
    (L.map rangeFst).getD i 0 = rangeFst (L.getD i []) := by
  rcases Nat.lt_or_ge i L.length with h | h
  · exact getD_map_lt L i h [] 0
  · rw [getD_eq_default _ _ _ (by simpa using h), getD_eq_default _ _ _ h,
      rangeFst_nil]

theorem getD_map_rangeLst (L : List Str) (i : Nat) :
    (L.map rangeLst).getD i 0 = rangeLst (L.getD i []) := by
  rcases Nat.lt_or_ge i L.length with h | h
  · exact getD_map_lt L i h [] 0
  · rw [getD_eq_default _ _ _ (by simpa using h), getD_eq_default _ _ _ h,
      rangeLst_nil]

theorem getD_take_drop (t : List α) (a kk i : Nat) (d : α) (hik : i < kk) :
    ((t.drop a).take kk).getD i d = t.getD (a + i) d := by
  rw [getD_eq_getElem?_getD, getD_eq_getElem?_getD, List.getElem?_take,
    if_pos hik, List.getElem?_drop]

theorem headD_eq_getD (l : List α) (d : α) : l.headD d = l.getD 0 d := by
  cases l <;> rfl

theorem chunkFirst_getD (L : List Str) (k j i : Nat) (hk : 0 < k) (hik : i < k) :
    ((splitList (L.map rangeFst) k).getD j []).getD i 0 =
      rangeFst (L.getD (j * k + i) []) := by
  rw [splitList_getD _ k hk j, getD_take_drop _ _ _ _ _ hik, getD_map_rangeFst]

theorem chunkLast_getD (L : List Str) (k j i : Nat) (hk : 0 < k) (hik : i < k) :
    ((splitList (L.map rangeLst) k).getD j []).getD i 0 =
      rangeLst (L.getD (j * k + i) []) := by
  rw [splitList_getD _ k hk j, getD_take_drop _ _ _ _ _ hik, getD_map_rangeLst]

theorem chunkList_getD (L : List Str) (k j i : Nat) (hk : 0 < k) (hik : i < k) :
    ((splitList L k).getD j []).getD i [] = L.getD (j * k + i) [] := by
  rw [splitList_getD _ k hk j, getD_take_drop _ _ _ _ _ hik]

theorem chunkFirst_length (L : List Str) (k j : Nat) (hk : 0 < k) :
    ((splitList (L.map rangeFst) k).getD j []).length =
      min k (L.length - j * k) := by
  rw [splitList_getD _ k hk j]
  simp [List.length_take, List.length_drop]

theorem listIndex_getD (L : List Str) (k : Nat) (hk : 0 < k) (j : Nat) :
    ((splitList (L.map rangeFst) k).map (fun c => c.headD 0)).getD j 0 =
      rangeFst (L.getD (j * k) []) := by
  rcases Nat.lt_or_ge j (splitList (L.map rangeFst) k).length with h | h
  · rw [getD_map_lt _ j h []]
    rw [headD_eq_getD]
    have := chunkFirst_getD L k j 0 hk hk
    simpa using this
  · rw [getD_eq_default _ _ _ (by simpa using h)]
    have hjk : ¬ j * k < (L.map rangeFst).length :=
      fun hc => absurd ((splitList_length_iff (L.map rangeFst) k hk j).mpr hc) (by omega)
    rw [getD_eq_default _ _ _ (by simp at hjk ⊢; omega), rangeFst_nil]

theorem chained_get_lt (L : List Str) (h : Chained L) (i j : Nat)
    (hij : i < j) (hj : j < L.length) :
    rangeLst (L.getD i []) < rangeFst (L.getD j []) := by
  have hi : i < L.length := by omega
  have hthis := (List.pairwise_iff_get.mp h) ⟨i, hi⟩ ⟨j, hj⟩ hij
  rw [List.getD_eq_getElem L [] hi, List.getD_eq_getElem L [] hj]
  rwa [List.get_eq_getElem, List.get_eq_getElem] at hthis

theorem chained_fst_mono (L : List Str) (h : Chained L) (i j : Nat)
    (hij : i ≤ j) (hj : j < L.length) :
    rangeFst (L.getD i []) ≤ rangeFst (L.getD j []) := by
  rcases Nat.eq_or_lt_of_le hij with he | hl
  · subst he; exact le_rfl
  · have h1 := chained_get_lt L h i j hl hj
    have h2 := range_fst_le_lst (L.getD i [])
    omega

theorem pairwise_le_of_getD_mono (a : List Nat)
    (h : ∀ i j, i < j → j < a.length → a.getD i 0 ≤ a.getD j 0) :
    a.Pairwise (fun p q => p ≤ q) := by
  rw [List.pairwise_iff_get]
  intro i j hij
  have hthis := h i j hij j.isLt
  simp only [List.get_eq_getElem]
  rwa [List.getD_eq_getElem a 0 i.isLt, List.getD_eq_getElem a 0 j.isLt] at hthis

theorem listIndex_sorted (L : List Str) (k : Nat) (hk : 0 < k)
    (hch : Chained L) :
    ((splitList (L.map rangeFst) k).map (fun c => c.headD 0)).Pairwise
      (fun p q => p ≤ q) := by
  apply pairwise_le_of_getD_mono
  intro i j hij hj
  rw [listIndex_getD L k hk i, listIndex_getD L k hk j]
  have hjlen : j < (splitList (L.map rangeFst) k).length := by simpa using hj
  have hjk : j * k < L.length := by
    have := (splitList_length_iff (L.map rangeFst) k hk j).mp hjlen
    simpa using this
  exact chained_fst_mono L hch (i * k) (j * k) (Nat.mul_le_mul_right k (le_of_lt hij)) hjk

theorem pyGet_nonneg (l : List α) (i : Nat) (h : i < l.length) (d : α) :
    pyGet l (i : Int) = some (l.getD i d) := by
  unfold pyGet
  have h0 : (0 : Int) ≤ (i : Int) := by omega
  simp only [h0, if_pos, Int.toNat_ofNat]
  rw [List.get?_eq_getElem?, List.getElem?_eq_getElem (by simpa using h),
    List.getD_eq_getElem l d h]

theorem pyGet_neg_one (l : List α) (h : l ≠ []) (d : α) :
    pyGet l (-1) = some (l.getD (l.length - 1) d) := by
  unfold pyGet
  have hlen : 0 < l.length := List.length_pos.mpr h
  have hneg : ¬ (0 : Int) ≤ (-1 : Int) := by omega
  simp only [hneg, if_false]
  have h0 : (0 : Int) ≤ -1 + (l.length : Int) := by omega
  rw [if_pos h0]
  have htn : ((-1 : Int) + (l.length : Int)).toNat = l.length - 1 := by omega
  rw [htn, List.get?_eq_getElem?, List.getElem?_eq_getElem (by omega),
    List.getD_eq_getElem l d (by omega)]

theorem chunkFirst_sorted (L : List Str) (k : Nat) (hk : 0 < k)
    (hch : Chained L) (j : Nat) :
    ((splitList (L.map rangeFst) k).getD j []).Pairwise (fun p q => p ≤ q) := by
  apply pairwise_le_of_getD_mono
  intro a b hab hb
  rw [chunkFirst_length] at hb
  · rw [chunkFirst_getD L k j a hk (by omega), chunkFirst_getD L k j b hk (by omega)]
    apply chained_fst_mono L hch _ _ (by omega)
    omega
  · exact hk

theorem splitList_length_eq (l1 : List α) (l2 : List β) (k : Nat) (hk : 0 < k)
    (hlen : l1.length = l2.length) :
    (splitList l1 k).length = (splitList l2 k).length := by
  by_contra hne
  rcases Nat.lt_or_ge (splitList l1 k).length (splitList l2 k).length with hlt | hge
  · have h1 := (splitList_length_iff l2 k hk (splitList l1 k).length).mp hlt
    have h2 := (splitList_length_iff l1 k hk (splitList l1 k).length).mpr (by omega)
    omega
  · have hlt : (splitList l2 k).length < (splitList l1 k).length := by omega
    have h1 := (splitList_length_iff l1 k hk (splitList l2 k).length).mp hlt
    have h2 := (splitList_length_iff l2 k hk (splitList l2 k).length).mpr (by omega)
    omega

theorem splitList_chunk_length (l : List α) (k j : Nat) (hk : 0 < k) :
    ((splitList l k).getD j []).length = min k (l.length - j * k) := by
  rw [splitList_getD _ k hk j]
  simp [List.length_take, List.length_drop]

theorem call_int_found (cfg : Config) (st : IPListState) (hS : StructInv st)
    (q : Int) (hq : 1 ≤ q) (t : Nat) (ht : t < st.cidrs.length)
    (hf : ((rangeFst (st.cidrs.getD t []) : Nat) : Int) ≤ q)
    (hl : q ≤ ((rangeLst (st.cidrs.getD t []) : Nat) : Int)) :
    call cfg st (.int q) = .found (st.cidrs.getD t []) := by
  obtain ⟨hch, k, hk, hC, hF, hL, hI⟩ := hS
  have hne : st.cidrs ≠ [] := by
    intro hcon
    rw [hcon] at ht
    simp at ht
  set L := st.cidrs with hLdef
  obtain ⟨j, i, hik, htdm⟩ : ∃ j i, i < k ∧ j * k + i = t :=
    ⟨t / k, t % k, Nat.mod_lt t hk, by rw [Nat.mul_comm]; exact Nat.div_add_mod t k⟩
  have hmF := fun (j' : Nat) => splitList_length_iff (L.map rangeFst) k hk j'
  simp only [List.length_map] at hmF
  have hjm : j < (splitList (L.map rangeFst) k).length := (hmF j).mpr (by omega)
  have hsort : st.listIndex.Pairwise (fun p q => p ≤ q) := by
    rw [hI, hF]
    exact listIndex_sorted L k hk hch
  have hIlen : st.listIndex.length = (splitList (L.map rangeFst) k).length := by
    rw [hI, hF]
    simp
  have hIgetD : ∀ j', st.listIndex.getD j' 0 = rangeFst (L.getD (j' * k) []) := by
    intro j'
    rw [hI, hF]
    exact listIndex_getD L k hk j'
  have hcnt : bisectRight st.listIndex q = j + 1 := by
    apply bisectRight_eq st.listIndex q hsort (j + 1) (by omega)
    · intro i' hi'
      rw [hIgetD i']
      have hmono := chained_fst_mono L hch (i' * k) t
        (by
          have : i' * k ≤ j * k := Nat.mul_le_mul_right k (by omega)
          omega) ht
      have hcast : ((rangeFst (L.getD (i' * k) []) : Nat) : Int) ≤
          ((rangeFst (L.getD t []) : Nat) : Int) := by exact_mod_cast hmono
      omega
    · intro i' hi1 hi2
      rw [hIgetD i']
      have hi'm : i' < (splitList (L.map rangeFst) k).length := by omega
      have hi'k : i' * k < L.length := (hmF i').mp hi'm
      have htlt : t < i' * k := by
        have : (j + 1) * k ≤ i' * k := Nat.mul_le_mul_right k hi1
        rw [Nat.succ_mul] at this
        omega
      have hchain := chained_get_lt L hch t (i' * k) htlt hi'k
      have hcast : ((rangeLst (L.getD t []) : Nat) : Int) <
          ((rangeFst (L.getD (i' * k) []) : Nat) : Int) := by exact_mod_cast hchain
      omega
  have hsel : callSelectedChunk st q = (j : Int) := by
    unfold callSelectedChunk
    rw [hcnt]
    have hcast : ((j + 1 : Nat) : Int) - 1 = (j : Int) := by push_cast; ring
    rw [hcast, if_pos (show (0 : Int) ≤ (j : Int) by omega)]
  have hchunkGet : pyGet st.firstIpChunks (j : Int) =
      some ((splitList (L.map rangeFst) k).getD j []) := by
    rw [hF]
    exact pyGet_nonneg _ j hjm []
  have hflen : ((splitList (L.map rangeFst) k).getD j []).length =
      min k (L.length - j * k) := by
    rw [splitList_chunk_length _ k j hk]
    simp
  have hilt : i < ((splitList (L.map rangeFst) k).getD j []).length := by
    rw [hflen]
    omega
  have hcnt2 : bisectRight ((splitList (L.map rangeFst) k).getD j []) q = i + 1 := by
    apply bisectRight_eq _ q (chunkFirst_sorted L k hk hch j) (i + 1) (by omega)
    · intro i' hi'
      rw [chunkFirst_getD L k j i' hk (by omega)]
      have hmono := chained_fst_mono L hch (j * k + i') t (by omega) ht
      have hcast : ((rangeFst (L.getD (j * k + i') []) : Nat) : Int) ≤
          ((rangeFst (L.getD t []) : Nat) : Int) := by exact_mod_cast hmono
      omega
    · intro i' hi1 hi2
      rw [hflen] at hi2
      rw [chunkFirst_getD L k j i' hk (by omega)]
      have hchain := chained_get_lt L hch t (j * k + i') (by omega) (by omega)
      have hcast : ((rangeLst (L.getD t []) : Nat) : Int) <
          ((rangeFst (L.getD (j * k + i') []) : Nat) : Int) := by exact_mod_cast hchain
      omega
  have hli : ((i + 1 : Nat) : Int) - 1 = (i : Int) := by push_cast; ring
  have hfv : pyGet ((splitList (L.map rangeFst) k).getD j []) (i : Int) =
      some (rangeFst (L.getD t [])) := by
    rw [pyGet_nonneg _ i hilt 0, chunkFirst_getD L k j i hk hik, htdm]
  have hCLen : (splitList L k).length = (splitList (L.map rangeFst) k).length :=
    splitList_length_eq L (L.map rangeFst) k hk (by simp)
  have hnet1 : pyGet st.listChunks (j : Int) = some ((splitList L k).getD j []) := by
    rw [hC]
    exact pyGet_nonneg _ j (by omega) []
  have hnlen : ((splitList L k).getD j []).length = min k (L.length - j * k) :=
    splitList_chunk_length L k j hk
  have hnet2 : pyGet ((splitList L k).getD j []) (i : Int) = some (L.getD t []) := by
    rw [pyGet_nonneg _ i (by omega) [], chunkList_getD L k j i hk hik, htdm]
  have hLLen : (splitList (L.map rangeLst) k).length =
      (splitList (L.map rangeFst) k).length :=
    splitList_length_eq _ _ k hk (by simp)
  have hlast1 : pyGet st.lastIpChunks (j : Int) =
      some ((splitList (L.map rangeLst) k).getD j []) := by
    rw [hL]
    exact pyGet_nonneg _ j (by omega) []
  have hllen : ((splitList (L.map rangeLst) k).getD j []).length =
      min k (L.length - j * k) := by
    rw [splitList_chunk_length _ k j hk]
    simp
  have hlast2 : pyGet ((splitList (L.map rangeLst) k).getD j []) (i : Int) =
      some (rangeLst (L.getD t [])) := by
    rw [pyGet_nonneg _ i (by omega) 0, chunkLast_getD L k j i hk hik, htdm]
  have hq0 : ¬ q ≤ 0 := by omega
  have hnlt : ¬ q < ((rangeFst (L.getD t []) : Nat) : Int) := by omega
  simp only [call, if_neg hne, if_neg hq0, hsel, hchunkGet, hcnt2, hli, hfv,
    hnet1, hnet2, hlast1, hlast2, Option.some_bind, if_neg hnlt, if_pos hl]

theorem getD_mem (l : List α) (u : Nat) (h : u < l.length) (d : α) :
    l.getD u d ∈ l := by
  rw [List.getD_eq_getElem l d h]
  exact List.getElem_mem h

theorem call_int_none (cfg : Config) (st : IPListState) (hS : StructInv st)
    (q : Int) (hq : 1 ≤ q)
    (hout : ∀ s ∈ st.cidrs,
      q < ((rangeFst s : Nat) : Int) ∨ ((rangeLst s : Nat) : Int) < q) :
    call cfg st (.int q) = .noMatch := by
  obtain ⟨hch, k, hk, hC, hF, hL, hI⟩ := hS
  by_cases hne : st.cidrs = []
  · simp [call, hne]
  · set L := st.cidrs with hLdef
    have hn : 0 < L.length := List.length_pos.mpr hne
    have hq0 : ¬ q ≤ 0 := by omega
    have hmF := fun (j' : Nat) => splitList_length_iff (L.map rangeFst) k hk j'
    simp only [List.length_map] at hmF
    have hm0 : 0 < (splitList (L.map rangeFst) k).length := (hmF 0).mpr (by omega)
    have hsort : st.listIndex.Pairwise (fun p q => p ≤ q) := by
      rw [hI, hF]
      exact listIndex_sorted L k hk hch
    have hIlen : st.listIndex.length = (splitList (L.map rangeFst) k).length := by
      rw [hI, hF]
      simp
    have hIgetD : ∀ j', st.listIndex.getD j' 0 = rangeFst (L.getD (j' * k) []) := by
      intro j'
      rw [hI, hF]
      exact listIndex_getD L k hk j'
    have hFlen : st.firstIpChunks.length = (splitList (L.map rangeFst) k).length := by
      rw [hF]
    have hspec := bisectRight_spec st.listIndex q hsort
    rcases Nat.eq_zero_or_pos (bisectRight st.listIndex q) with hzero | hpos
    · -- query precedes every chunk first: negative index resolves to last chunk
      have hallgt : ∀ v, v < L.length → q < ((rangeFst (L.getD v []) : Nat) : Int) := by
        intro v hv
        have h0 := hspec.2.1 0 (by omega) (by omega)
        rw [hIgetD 0] at h0
        simp only [Nat.zero_mul] at h0
        have hmono := chained_fst_mono L hch 0 v (by omega) hv
        have hcast : ((rangeFst (L.getD 0 []) : Nat) : Int) ≤
            ((rangeFst (L.getD v []) : Nat) : Int) := by exact_mod_cast hmono
        omega
      obtain ⟨m1, hm1⟩ : ∃ m1, (splitList (L.map rangeFst) k).length = m1 + 1 :=
        ⟨(splitList (L.map rangeFst) k).length - 1, by omega⟩
      have hsel : callSelectedChunk st q = (m1 : Int) := by
        unfold callSelectedChunk
        rw [hzero, hFlen, hm1]
        have hcond : ¬ (0 : Int) ≤ ((0 : Nat) : Int) - 1 := by omega
        rw [if_neg hcond]
        push_cast
        ring
      have hm1lt : m1 < (splitList (L.map rangeFst) k).length := by omega
      have hm1k : m1 * k < L.length := (hmF m1).mp hm1lt
      have hchunkGet : pyGet st.firstIpChunks (m1 : Int) =
          some ((splitList (L.map rangeFst) k).getD m1 []) := by
        rw [hF]
        exact pyGet_nonneg _ m1 (by omega) []
      have hflen : ((splitList (L.map rangeFst) k).getD m1 []).length =
          min k (L.length - m1 * k) := by
        rw [splitList_chunk_length _ k m1 hk]
        simp
      have hflpos : 0 < ((splitList (L.map rangeFst) k).getD m1 []).length := by
        omega
      have hcnt2 : bisectRight ((splitList (L.map rangeFst) k).getD m1 []) q = 0 := by
        apply bisectRight_eq _ q (chunkFirst_sorted L k hk hch m1) 0 (by omega)
        · intro u hu
          omega
        · intro u hu1 hu2
          rw [hflen] at hu2
          rw [chunkFirst_getD L k m1 u hk (by omega)]
          exact hallgt (m1 * k + u) (by omega)
      have hli0 : ((0 : Nat) : Int) - 1 = (-1 : Int) := by norm_num
      have hfcne : ((splitList (L.map rangeFst) k).getD m1 []) ≠ [] := by
        intro hcon
        rw [hcon] at hflpos
        simp at hflpos
      have hfvget : pyGet ((splitList (L.map rangeFst) k).getD m1 []) (-1) =
          some (((splitList (L.map rangeFst) k).getD m1 []).getD
            (((splitList (L.map rangeFst) k).getD m1 []).length - 1) 0) :=
        pyGet_neg_one _ hfcne 0
      have hfvval : ((splitList (L.map rangeFst) k).getD m1 []).getD
          (((splitList (L.map rangeFst) k).getD m1 []).length - 1) 0 =
          rangeFst (L.getD (m1 * k + (((splitList (L.map rangeFst) k).getD m1 []).length - 1)) []) := by
        apply chunkFirst_getD L k m1 _ hk
        omega
      have hqlt : q < ((((splitList (L.map rangeFst) k).getD m1 []).getD
          (((splitList (L.map rangeFst) k).getD m1 []).length - 1) 0 : Nat) : Int) := by
        rw [hfvval]
        exact hallgt _ (by omega)
      simp only [call, if_neg hne, if_neg hq0, hsel, hchunkGet, hcnt2, hli0,
        hfvget, if_pos hqlt]
    · -- a chunk head is at most the query
      obtain ⟨j, hj⟩ : ∃ j, bisectRight st.listIndex q = j + 1 :=
        ⟨bisectRight st.listIndex q - 1, by omega⟩
      have hjm : j < (splitList (L.map rangeFst) k).length := by
        have := hspec.2.2
        omega
      have hjk : j * k < L.length := (hmF j).mp hjm
      have hsel : callSelectedChunk st q = (j : Int) := by
        unfold callSelectedChunk
        rw [hj]
        have hcast : ((j + 1 : Nat) : Int) - 1 = (j : Int) := by push_cast; ring
        rw [hcast, if_pos (show (0 : Int) ≤ (j : Int) by omega)]
      have hchunkGet : pyGet st.firstIpChunks (j : Int) =
          some ((splitList (L.map rangeFst) k).getD j []) := by
        rw [hF]
        exact pyGet_nonneg _ j (by omega) []
      have hflen : ((splitList (L.map rangeFst) k).getD j []).length =
          min k (L.length - j * k) := by
        rw [splitList_chunk_length _ k j hk]
        simp
      have hhead : ((rangeFst (L.getD (j * k) []) : Nat) : Int) ≤ q := by
        have h0 := hspec.1 j (by omega)
        rwa [hIgetD j] at h0
      have hspec2 := bisectRight_spec ((splitList (L.map rangeFst) k).getD j []) q
        (chunkFirst_sorted L k hk hch j)
      have hcnt2pos : 0 < bisectRight ((splitList (L.map rangeFst) k).getD j []) q := by
        by_contra hcon
        have h0 := hspec2.2.1 0 (by omega) (by omega)
        rw [chunkFirst_getD L k j 0 hk hk] at h0
        simp only [Nat.add_zero] at h0
        omega
      obtain ⟨i, hi⟩ : ∃ i, bisectRight ((splitList (L.map rangeFst) k).getD j []) q
          = i + 1 :=
        ⟨bisectRight ((splitList (L.map rangeFst) k).getD j []) q - 1, by omega⟩
      have hilen : i < ((splitList (L.map rangeFst) k).getD j []).length := by
        have := hspec2.2.2
        omega
      have hli : ((i + 1 : Nat) : Int) - 1 = (i : Int) := by push_cast; ring
      have hfv : pyGet ((splitList (L.map rangeFst) k).getD j []) (i : Int) =
          some (rangeFst (L.getD (j * k + i) [])) := by
        rw [pyGet_nonneg _ i hilen 0, chunkFirst_getD L k j i hk (by omega)]
      have hfvle : ((rangeFst (L.getD (j * k + i) []) : Nat) : Int) ≤ q := by
        have := hspec2.1 i (by omega)
        rwa [chunkFirst_getD L k j i hk (by omega)] at this
      have hnlt : ¬ q < ((rangeFst (L.getD (j * k + i) []) : Nat) : Int) := by omega
      have huin : j * k + i < L.length := by omega
      have hCLen : (splitList L k).length = (splitList (L.map rangeFst) k).length :=
        splitList_length_eq L (L.map rangeFst) k hk (by simp)
      have hnet1 : pyGet st.listChunks (j : Int) = some ((splitList L k).getD j []) := by
        rw [hC]
        exact pyGet_nonneg _ j (by omega) []
      have hnlen : ((splitList L k).getD j []).length = min k (L.length - j * k) :=
        splitList_chunk_length L k j hk
      have hnet2 : pyGet ((splitList L k).getD j []) (i : Int) =
          some (L.getD (j * k + i) []) := by
        rw [pyGet_nonneg _ i (by omega) [], chunkList_getD L k j i hk (by omega)]
      have hLLen : (splitList (L.map rangeLst) k).length =
          (splitList (L.map rangeFst) k).length :=
        splitList_length_eq _ _ k hk (by simp)
      have hlast1 : pyGet st.lastIpChunks (j : Int) =
          some ((splitList (L.map rangeLst) k).getD j []) := by
        rw [hL]
        exact pyGet_nonneg _ j (by omega) []
      have hllen : ((splitList (L.map rangeLst) k).getD j []).length =
          min k (L.length - j * k) := by
        rw [splitList_chunk_length _ k j hk]
        simp
      have hlast2 : pyGet ((splitList (L.map rangeLst) k).getD j []) (i : Int) =
          some (rangeLst (L.getD (j * k + i) [])) := by
        rw [pyGet_nonneg _ i (by omega) 0, chunkLast_getD L k j i hk (by omega)]
      have hlstlt : ((rangeLst (L.getD (j * k + i) []) : Nat) : Int) < q := by
        rcases hout (L.getD (j * k + i) []) (getD_mem L _ huin []) with hcase | hcase
        · omega
        · exact hcase
      have hnle : ¬ q ≤ ((rangeLst (L.getD (j * k + i) []) : Nat) : Int) := by omega
      simp only [call, if_neg hne, if_neg hq0, hsel, hchunkGet, hi, hli, hfv,
        hnet1, hnet2, hlast1, hlast2, Option.some_bind, if_neg hnlt, if_neg hnle]

theorem scanChunkGo_spec (names : List Str) (ls : List Nat) (cf cl : Nat) :
    ∀ (fs : List Nat) (i : Nat),
      (scanChunkGo names ls cf cl i fs = none ↔
        ∀ u, u < fs.length →
          ipRangesOverlap cf cl (fs.getD u 0) (ls.getD (i + u) 0) = false) ∧
      (∀ c, scanChunkGo names ls cf cl i fs = some c →
        ∃ u, u < fs.length ∧ c = names.getD (i + u) [] ∧
          ipRangesOverlap cf cl (fs.getD u 0) (ls.getD (i + u) 0) = true) := by
  intro fs
  induction fs with
  | nil =>
    intro i
    simp [scanChunkGo]
  | cons f rest ih =>
    intro i
    by_cases hov : ipRangesOverlap cf cl f (ls.getD i 0) = true
    · have hres : scanChunkGo names ls cf cl i (f :: rest) = some (names.getD i []) := by
        simp only [scanChunkGo, hov, if_true]
      constructor
      · rw [hres]
        constructor
        · intro h
          exact absurd h (by simp)
        · intro h
          have h0 := h 0 (by simp)
          rw [List.getD_cons_zero, Nat.add_zero] at h0
          rw [h0] at hov
          exact Bool.noConfusion hov
      · intro c hc
        rw [hres] at hc
        refine ⟨0, by simp, ?_, ?_⟩
        · rw [Nat.add_zero]
          exact (Option.some.inj hc).symm
        · rw [Nat.add_zero, List.getD_cons_zero]
          exact hov
    · have hovf : ipRangesOverlap cf cl f (ls.getD i 0) = false := by
        simpa using hov
      have hres : scanChunkGo names ls cf cl i (f :: rest) =
          scanChunkGo names ls cf cl (i + 1) rest := by
        simp only [scanChunkGo]
        rw [hovf]
        simp
      have hrec := ih (i + 1)
      constructor
      · rw [hres, hrec.1]
        constructor
        · intro h u hu
          cases u with
          | zero =>
            rw [List.getD_cons_zero, Nat.add_zero]
            exact hovf
          | succ u =>
            have hh := h u (Nat.lt_of_succ_lt_succ hu)
            have hidx : i + 1 + u = i + (u + 1) := by omega
            rw [hidx] at hh
            rw [List.getD_cons_succ]
            exact hh
        · intro h u hu
          have hh := h (u + 1) (Nat.succ_lt_succ hu)
          have hidx : i + (u + 1) = i + 1 + u := by omega
          rw [hidx] at hh
          rw [List.getD_cons_succ] at hh
          exact hh
      · intro c hc
        rw [hres] at hc
        obtain ⟨u, hu, hc1, hc2⟩ := hrec.2 c hc
        refine ⟨u + 1, Nat.succ_lt_succ hu, ?_, ?_⟩
        · rw [hc1]
          congr 1
          omega
        · have hidx : i + (u + 1) = i + 1 + u := by omega
          rw [hidx, List.getD_cons_succ]
          exact hc2

theorem ipRangesOverlap_true_iff (a b c d : Nat) :
    ipRangesOverlap a b c d = true ↔ c ≤ b ∧ a ≤ d := by
  unfold ipRangesOverlap
  simp

theorem scanChunkAt_spec (st : IPListState) (k : Nat) (hk : 0 < k)
    (hC : st.listChunks = splitList st.cidrs k)
    (hF : st.firstIpChunks = splitList (st.cidrs.map rangeFst) k)
    (hL : st.lastIpChunks = splitList (st.cidrs.map rangeLst) k)
    (r cf cl : Nat) :
    (scanChunkAt st r cf cl = none ↔
      ∀ u, u < min k (st.cidrs.length - r * k) →
        ipRangesOverlap cf cl (rangeFst (st.cidrs.getD (r * k + u) []))
          (rangeLst (st.cidrs.getD (r * k + u) [])) = false) ∧
    (∀ c, scanChunkAt st r cf cl = some c →
      ∃ u, u < min k (st.cidrs.length - r * k) ∧ c = st.cidrs.getD (r * k + u) [] ∧
        ipRangesOverlap cf cl (rangeFst (st.cidrs.getD (r * k + u) []))
          (rangeLst (st.cidrs.getD (r * k + u) [])) = true) := by
  have hgo := scanChunkGo_spec (st.listChunks.getD r []) (st.lastIpChunks.getD r [])
    cf cl (st.firstIpChunks.getD r []) 0
  have hflen : (st.firstIpChunks.getD r []).length =
      min k (st.cidrs.length - r * k) := by
    rw [hF, splitList_chunk_length _ k r hk]
    simp
  have hfget : ∀ u, u < k → (st.firstIpChunks.getD r []).getD u 0 =
      rangeFst (st.cidrs.getD (r * k + u) []) := by
    intro u hu
    rw [hF]
    exact chunkFirst_getD st.cidrs k r u hk hu
  have hlget : ∀ u, u < k → (st.lastIpChunks.getD r []).getD u 0 =
      rangeLst (st.cidrs.getD (r * k + u) []) := by
    intro u hu
    rw [hL]
    exact chunkLast_getD st.cidrs k r u hk hu
  have hnget : ∀ u, u < k → (st.listChunks.getD r []).getD u [] =
      st.cidrs.getD (r * k + u) [] := by
    intro u hu
    rw [hC]
    exact chunkList_getD st.cidrs k r u hk hu
  have hdefeq : scanChunkAt st r cf cl = scanChunkGo (st.listChunks.getD r [])
      (st.lastIpChunks.getD r []) cf cl 0 (st.firstIpChunks.getD r []) := rfl
  constructor
  · rw [hdefeq, hgo.1]
    constructor
    · intro h u hu
      have hh := h u (by omega)
      rw [Nat.zero_add] at hh
      rw [hfget u (by omega), hlget u (by omega)] at hh
      exact hh
    · intro h u hu
      rw [hflen] at hu
      rw [Nat.zero_add]
      rw [hfget u (by omega), hlget u (by omega)]
      exact h u hu
  · intro c hc
    rw [hdefeq] at hc
    obtain ⟨u, hu, h1, h2⟩ := hgo.2 c hc
    rw [hflen] at hu
    rw [Nat.zero_add] at h1 h2
    rw [hnget u (by omega)] at h1
    rw [hfget u (by omega), hlget u (by omega)] at h2
    exact ⟨u, hu, h1, h2⟩

theorem getD_of_mem (l : List Str) (s : Str) (hs : s ∈ l) :
    ∃ t, t < l.length ∧ l.getD t [] = s := by
  obtain ⟨⟨t, ht⟩, hg⟩ := List.mem_iff_get.mp hs
  rw [List.get_eq_getElem] at hg
  exact ⟨t, ht, by rw [List.getD_eq_getElem l [] ht]; exact hg⟩

/-- C1 (amended): containment correctness of lookup for positive query
integers.  For every structurally well-formed index, a positive integer
query inside a stored range returns that stored CIDR, and a positive
integer query strictly outside every stored range returns no-match.
(The query integer 0 is excluded: the counterexample shows `__call__`
rejects `iplong <= 0` even when 0 lies inside a stored range.) -/
theorem containment_correctness (cfg : Config) (st : IPListState)
    (hS : StructInv st) (q : Int) (hq : 1 ≤ q) :
    (∀ s ∈ st.cidrs, ((rangeFst s : Nat) : Int) ≤ q →
      q ≤ ((rangeLst s : Nat) : Int) → call cfg st (.int q) = .found s) ∧
    ((∀ s ∈ st.cidrs, q < ((rangeFst s : Nat) : Int) ∨
        ((rangeLst s : Nat) : Int) < q) →
      call cfg st (.int q) = .noMatch) := by
  constructor
  · intro s hs hf hl
    obtain ⟨t, ht, hts⟩ := getD_of_mem st.cidrs s hs
    rw [← hts]
    exact call_int_found cfg st hS q hq t ht (hts ▸ hf) (hts ▸ hl)
  · intro hout
    exact call_int_none cfg st hS q hq hout

/-- A boolean-mode instance over `10.0.0.0/8`, used as a concrete
well-formed index by several witnesses. -/
def exSt1 : IPListState := (construct ⟨false, false⟩ ["10.0.0.0/8".data]).1

theorem exSt1_structInv : StructInv exSt1 :=
  ⟨by unfold Chained; decide, 1, by decide, by decide, by decide, by decide, by decide⟩

/-- Witness for `containment_correctness` on a concrete index: an inside
query finds the network, an outside query misses. -/
theorem containment_correctness_witness :
    call ⟨false, false⟩ exSt1 (.int 167772161) = .found "10.0.0.0/8".data ∧
    call ⟨false, false⟩ exSt1 (.int 99) = .noMatch :=
  ⟨(containment_correctness ⟨false, false⟩ exSt1 exSt1_structInv 167772161
      (by decide)).1 "10.0.0.0/8".data (by decide) (by decide) (by decide),
   (containment_correctness ⟨false, false⟩ exSt1 exSt1_structInv 99
      (by decide)).2 (by decide)⟩

theorem mem_getD (l : List α) (x d : α) (hx : x ∈ l) :
    ∃ t, t < l.length ∧ l.getD t d = x := by
  obtain ⟨⟨t, ht⟩, hg⟩ := List.mem_iff_get.mp hx
  rw [List.get_eq_getElem] at hg
  exact ⟨t, ht, by rw [List.getD_eq_getElem l d ht]; exact hg⟩

/-- C9 (amended): lookup chunk selection.  `__call__` selects the
right-most chunk whose first range-start is at most the query integer;
but when the query precedes every chunk's first range-start, the raw
`bisect_right - 1 = -1` is NOT clamped to chunk 0: Python's negative
indexing resolves it to the LAST chunk, and the lookup then returns
no-match for every positive query. -/
theorem lookup_chunk_selection (st : IPListState) (hS : StructInv st) (q : Int) :
    ((∃ x ∈ st.listIndex, (x : Int) ≤ q) →
      ∃ j0 : Nat, callSelectedChunk st q = (j0 : Int) ∧ j0 < st.listIndex.length ∧
        ((st.listIndex.getD j0 0 : Nat) : Int) ≤ q ∧
        ∀ j', j' < st.listIndex.length →
          ((st.listIndex.getD j' 0 : Nat) : Int) ≤ q → j' ≤ j0) ∧
    ((∀ x ∈ st.listIndex, q < (x : Int)) → st.cidrs ≠ [] →
      callSelectedChunk st q = (st.firstIpChunks.length : Int) - 1 ∧
      (1 ≤ q → ∀ cfg, call cfg st (.int q) = .noMatch)) := by
  have hS' := hS
  obtain ⟨hch, k, hk, hC, hF, hL, hI⟩ := hS'
  set L := st.cidrs with hLdef
  have hsort : st.listIndex.Pairwise (fun p q => p ≤ q) := by
    rw [hI, hF]
    exact listIndex_sorted L k hk hch
  have hspec := bisectRight_spec st.listIndex q hsort
  constructor
  · intro hex
    obtain ⟨x, hxmem, hxle⟩ := hex
    obtain ⟨u, hu, hud⟩ := mem_getD st.listIndex x 0 hxmem
    have hpos : 0 < bisectRight st.listIndex q := by
      by_contra hcon
      have := hspec.2.1 u (by omega) hu
      rw [hud] at this
      omega
    refine ⟨bisectRight st.listIndex q - 1, ?_, by omega, ?_, ?_⟩
    · unfold callSelectedChunk
      have hcast : ((bisectRight st.listIndex q : Nat) : Int) - 1 =
          ((bisectRight st.listIndex q - 1 : Nat) : Int) := by omega
      rw [hcast, if_pos (by omega)]
    · exact hspec.1 _ (by omega)
    · intro j' hj1 hj2
      by_contra hcon
      have := hspec.2.1 j' (by omega) hj1
      omega
  · intro hall hne
    have hn : 0 < L.length := List.length_pos.mpr hne
    have hmF := fun (j' : Nat) => splitList_length_iff (L.map rangeFst) k hk j'
    simp only [List.length_map] at hmF
    have hm0 : 0 < (splitList (L.map rangeFst) k).length := (hmF 0).mpr (by omega)
    have hIlen : st.listIndex.length = (splitList (L.map rangeFst) k).length := by
      rw [hI, hF]
      simp
    have hFlen : st.firstIpChunks.length = (splitList (L.map rangeFst) k).length := by
      rw [hF]
    have hzero : bisectRight st.listIndex q = 0 := by
      apply bisectRight_eq st.listIndex q hsort 0 (by omega)
      · intro u hu
        omega
      · intro u hu1 hu2
        exact hall _ (getD_mem st.listIndex u hu2 0)
    constructor
    · unfold callSelectedChunk
      rw [hzero]
      have hcond : ¬ (0 : Int) ≤ ((0 : Nat) : Int) - 1 := by omega
      rw [if_neg hcond]
      push_cast
      ring
    · intro hq cfg
      apply call_int_none cfg st hS q hq
      intro s hs
      left
      obtain ⟨t, ht, hts⟩ := getD_of_mem L s hs
      have h0 : q < ((st.listIndex.getD 0 0 : Nat) : Int) :=
        hall _ (getD_mem st.listIndex 0 (by omega) 0)
      have h0v : st.listIndex.getD 0 0 = rangeFst (L.getD 0 []) := by
        rw [hI, hF]
        have := listIndex_getD L k hk 0
        simpa using this
      have hmono := chained_fst_mono L hch 0 t (by omega) ht
      have hcast : ((rangeFst (L.getD 0 []) : Nat) : Int) ≤
          ((rangeFst (L.getD t []) : Nat) : Int) := by exact_mod_cast hmono
      rw [← hts]
      rw [h0v] at h0
      omega

/-- Witness for `lookup_chunk_selection` on the one-chunk index
`exSt1`: a query past the chunk start selects chunk 0; a query before
every chunk start resolves to the last chunk and misses. -/
theorem lookup_chunk_selection_witness :
    (∃ j0 : Nat, callSelectedChunk exSt1 167772161 = (j0 : Int) ∧
      j0 < exSt1.listIndex.length ∧
      ((exSt1.listIndex.getD j0 0 : Nat) : Int) ≤ 167772161 ∧
      ∀ j', j' < exSt1.listIndex.length →
        ((exSt1.listIndex.getD j' 0 : Nat) : Int) ≤ 167772161 → j' ≤ j0) ∧
    (callSelectedChunk exSt1 99 = (exSt1.firstIpChunks.length : Int) - 1 ∧
      call ⟨false, false⟩ exSt1 (.int 99) = .noMatch) :=
  ⟨(lookup_chunk_selection exSt1 exSt1_structInv 167772161).1
      ⟨167772160, by decide, by decide⟩,
   ⟨((lookup_chunk_selection exSt1 exSt1_structInv 99).2 (by decide) (by decide)).1,
    ((lookup_chunk_selection exSt1 exSt1_structInv 99).2 (by decide) (by decide)).2
      (by decide) ⟨false, false⟩⟩⟩

/-- The query range start used by `_find_cidr_overlap`. -/
def probeCf (cidr : Str) : Nat := (getFirstLastIpCidr (normalizeCidrSuffix cidr)).1

/-- The query range end used by `_find_cidr_overlap`. -/
def probeCl (cidr : Str) : Nat := (getFirstLastIpCidr (normalizeCidrSuffix cidr)).2

/-- The chunk index `_find_cidr_overlap` scans first (bisect result minus
one, truncated at zero by Nat subtraction). -/
def probeChunk (st : IPListState) (cidr : Str) : Nat :=
  bisectRight st.listIndex (probeCf cidr : Int) - 1

theorem findCidrOverlap_eq (st : IPListState) (cidr : Str) (hne : st.cidrs ≠ []) :
    findCidrOverlap st cidr =
      (match scanChunkAt st (probeChunk st cidr) (probeCf cidr) (probeCl cidr) with
       | some c => some c
       | none =>
         match probeTryIdx st (probeCf cidr) (probeCl cidr)
             ((probeChunk st cidr : Int) - 1) with
         | some c => some c
         | none => probeTryIdx st (probeCf cidr) (probeCl cidr)
             ((probeChunk st cidr : Int) + 1)) := by
  unfold findCidrOverlap probeChunk probeCf probeCl
  rw [if_neg hne]
  have hr : ∀ c : Nat,
      (if ((c : Int) - 1) < 0 then (0 : Nat) else ((c : Int) - 1).toNat) = c - 1 := by
    intro c
    rcases c with _ | c
    · rw [if_pos (by omega)]
    · rw [if_neg (by omega)]
      omega
  simp only [hr]

theorem findCidrOverlap_none_iff (st : IPListState) (cidr : Str)
    (hne : st.cidrs ≠ []) :
    findCidrOverlap st cidr = none ↔
      (scanChunkAt st (probeChunk st cidr) (probeCf cidr) (probeCl cidr) = none ∧
       probeTryIdx st (probeCf cidr) (probeCl cidr)
         ((probeChunk st cidr : Int) - 1) = none ∧
       probeTryIdx st (probeCf cidr) (probeCl cidr)
         ((probeChunk st cidr : Int) + 1) = none) := by
  rw [findCidrOverlap_eq st cidr hne]
  rcases h1 : scanChunkAt st (probeChunk st cidr) (probeCf cidr) (probeCl cidr)
    with _ | c1
  · rcases h2 : probeTryIdx st (probeCf cidr) (probeCl cidr)
        ((probeChunk st cidr : Int) - 1) with _ | c2
    · simp [h1, h2]
    · simp [h1, h2]
  · simp [h1]

theorem findCidrOverlap_some_mem (st : IPListState) (k : Nat) (hk : 0 < k)
    (hC : st.listChunks = splitList st.cidrs k)
    (hF : st.firstIpChunks = splitList (st.cidrs.map rangeFst) k)
    (hL : st.lastIpChunks = splitList (st.cidrs.map rangeLst) k)
    (cidr : Str) (hne : st.cidrs ≠ []) (c : Str)
    (hc : findCidrOverlap st cidr = some c) :
    c ∈ st.cidrs ∧
      ipRangesOverlap (probeCf cidr) (probeCl cidr) (rangeFst c) (rangeLst c) =
        true := by
  have hfromScan : ∀ r, scanChunkAt st r (probeCf cidr) (probeCl cidr) = some c →
      c ∈ st.cidrs ∧
        ipRangesOverlap (probeCf cidr) (probeCl cidr) (rangeFst c) (rangeLst c) =
          true := by
    intro r hr
    obtain ⟨u, hu, h1, h2⟩ :=
      (scanChunkAt_spec st k hk hC hF hL r (probeCf cidr) (probeCl cidr)).2 c hr
    constructor
    · rw [h1]
      exact getD_mem st.cidrs _ (by omega) []
    · rw [h1]
      exact h2
  have hfromProbe : ∀ idx,
      probeTryIdx st (probeCf cidr) (probeCl cidr) idx = some c →
      c ∈ st.cidrs ∧
        ipRangesOverlap (probeCf cidr) (probeCl cidr) (rangeFst c) (rangeLst c) =
          true := by
    intro idx h
    unfold probeTryIdx at h
    split at h
    · exact hfromScan _ h
    · exact Option.noConfusion h
  rw [findCidrOverlap_eq st cidr hne] at hc
  rcases h1 : scanChunkAt st (probeChunk st cidr) (probeCf cidr) (probeCl cidr)
    with _ | c1
  · rcases h2 : probeTryIdx st (probeCf cidr) (probeCl cidr)
        ((probeChunk st cidr : Int) - 1) with _ | c2
    · simp only [h1, h2] at hc
      exact hfromProbe _ hc
    · simp only [h1, h2, Option.some.injEq] at hc
      rw [hc] at h2
      exact hfromProbe _ h2
  · simp only [h1, Option.some.injEq] at hc
    rw [hc] at h1
    exact hfromScan _ h1

theorem findOverlap_core (st : IPListState) (k : Nat) (hk : 0 < k)
    (hch : Chained st.cidrs)
    (hC : st.listChunks = splitList st.cidrs k)
    (hF : st.firstIpChunks = splitList (st.cidrs.map rangeFst) k)
    (hL : st.lastIpChunks = splitList (st.cidrs.map rangeLst) k)
    (hI : st.listIndex = st.firstIpChunks.map (fun c => c.headD 0))
    (cf cl rN : Nat) (hrN : rN = bisectRight st.listIndex (cf : Int) - 1)
    (hs0 : scanChunkAt st rN cf cl = none)
    (hsm : probeTryIdx st cf cl ((rN : Int) - 1) = none)
    (hsp : probeTryIdx st cf cl ((rN : Int) + 1) = none) :
    ∀ s ∈ st.cidrs, ipRangesOverlap cf cl (rangeFst s) (rangeLst s) = false := by
  intro s hsmem
  by_contra hovB'
  rw [Bool.not_eq_false] at hovB'
  obtain ⟨t, ht, hts⟩ := getD_of_mem st.cidrs s hsmem
  rw [← hts] at hovB'
  have hov := (ipRangesOverlap_true_iff cf cl _ _).mp hovB'
  have hmF := fun (j' : Nat) => splitList_length_iff (st.cidrs.map rangeFst) k hk j'
  simp only [List.length_map] at hmF
  have hsort : st.listIndex.Pairwise (fun p q => p ≤ q) := by
    rw [hI, hF]
    exact listIndex_sorted st.cidrs k hk hch
  have hIlen : st.listIndex.length = (splitList (st.cidrs.map rangeFst) k).length := by
    rw [hI, hF]
    simp
  have hFlen : st.firstIpChunks.length =
      (splitList (st.cidrs.map rangeFst) k).length := by
    rw [hF]
  have hIgetD : ∀ j', st.listIndex.getD j' 0 =
      rangeFst (st.cidrs.getD (j' * k) []) := by
    intro j'
    rw [hI, hF]
    exact listIndex_getD st.cidrs k hk j'
  have hcspec := bisectRight_spec st.listIndex (cf : Int) hsort
  have hscannone : ∀ r, scanChunkAt st r cf cl = none →
      ∀ u', u' < min k (st.cidrs.length - r * k) →
        ipRangesOverlap cf cl (rangeFst (st.cidrs.getD (r * k + u') []))
          (rangeLst (st.cidrs.getD (r * k + u') [])) = false :=
    fun r h => (scanChunkAt_spec st k hk hC hF hL r cf cl).1.mp h
  have hprobe : ∀ idx : Int, probeTryIdx st cf cl idx = none → 0 ≤ idx →
      idx < (st.firstIpChunks.length : Int) → scanChunkAt st idx.toNat cf cl = none := by
    intro idx h h0 hl'
    unfold probeTryIdx at h
    rw [if_pos ⟨h0, hl'⟩] at h
    exact h
  obtain ⟨jt, u, huk, htdm⟩ : ∃ j i, i < k ∧ j * k + i = t :=
    ⟨t / k, t % k, Nat.mod_lt t hk, by rw [Nat.mul_comm]; exact Nat.div_add_mod t k⟩
  have hjtm : jt < (splitList (st.cidrs.map rangeFst) k).length :=
    (hmF jt).mpr (by omega)
  by_cases hA : rN + 2 ≤ jt
  · -- far right: the head of chunk rN+1 already overlaps, but that chunk scanned clean
    have hstep : (rN + 2) * k ≤ jt * k := Nat.mul_le_mul_right k hA
    have hstep2 : (rN + 1) * k + k = (rN + 2) * k := by
      rw [Nat.succ_mul (rN + 1) k]
    have hu0lt : (rN + 1) * k < st.cidrs.length := by omega
    have hrN1m : rN + 1 < (splitList (st.cidrs.map rangeFst) k).length :=
      (hmF (rN + 1)).mpr hu0lt
    have hhead := hcspec.2.1 (rN + 1) (by omega) (by omega)
    rw [hIgetD (rN + 1)] at hhead
    have hmono := chained_fst_mono st.cidrs hch ((rN + 1) * k) t (by omega) ht
    have hfl := range_fst_le_lst (st.cidrs.getD ((rN + 1) * k) [])
    have hin1 : ((rN : Int) + 1) < (st.firstIpChunks.length : Int) := by omega
    have hsc := hprobe ((rN : Int) + 1) hsp (by omega) hin1
    have htoNat : ((rN : Int) + 1).toNat = rN + 1 := by omega
    rw [htoNat] at hsc
    have hzero := hscannone (rN + 1) hsc 0 (by omega)
    rw [Nat.add_zero] at hzero
    have hcontra : ¬ (rangeFst (st.cidrs.getD ((rN + 1) * k) []) ≤ cl ∧
        cf ≤ rangeLst (st.cidrs.getD ((rN + 1) * k) [])) := by
      rw [← ipRangesOverlap_true_iff]
      rw [hzero]
      simp
    omega
  · by_cases hB : jt + 2 ≤ rN
    · -- far left: entry t ends before chunk rN-1 even starts
      have hcnt1 : rN + 1 = bisectRight st.listIndex (cf : Int) := by omega
      have hlow := hcspec.1 (rN - 1) (by omega)
      rw [hIgetD (rN - 1)] at hlow
      have hrm : (rN - 1) * k < st.cidrs.length := (hmF (rN - 1)).mp (by omega)
      have htlt : t < (rN - 1) * k := by
        have h1 : (jt + 1) * k ≤ (rN - 1) * k := Nat.mul_le_mul_right k (by omega)
        rw [Nat.succ_mul] at h1
        omega
      have hchain := chained_get_lt st.cidrs hch t ((rN - 1) * k) htlt hrm
      omega
    · -- within one chunk of rN: the scanned chunks cover position t
      rcases show jt = rN ∨ jt = rN + 1 ∨ jt + 1 = rN by omega with hc | hc | hc
      · subst hc
        have hcontra := hscannone jt hs0 u (by omega)
        rw [htdm] at hcontra
        rw [hcontra] at hovB'
        exact Bool.noConfusion hovB'
      · subst hc
        have hin1 : ((rN : Int) + 1) < (st.firstIpChunks.length : Int) := by omega
        have hsc := hprobe ((rN : Int) + 1) hsp (by omega) hin1
        have htoNat : ((rN : Int) + 1).toNat = rN + 1 := by omega
        rw [htoNat] at hsc
        have hcontra := hscannone (rN + 1) hsc u (by omega)
        rw [htdm] at hcontra
        rw [hcontra] at hovB'
        exact Bool.noConfusion hovB'
      · have hin0 : (0 : Int) ≤ (rN : Int) - 1 := by omega
        have hin1 : ((rN : Int) - 1) < (st.firstIpChunks.length : Int) := by omega
        have hsc := hprobe ((rN : Int) - 1) hsm hin0 hin1
        have htoNat : ((rN : Int) - 1).toNat = jt := by omega
        rw [htoNat] at hsc
        have hcontra := hscannone jt hsc u (by omega)
        rw [htdm] at hcontra
        rw [hcontra] at hovB'
        exact Bool.noConfusion hovB'

/-- C3: completeness of the overlap probe.  On a structurally well-formed
index (entries pairwise disjoint and sorted by range start, chunk
structures as published), `_find_cidr_overlap` — bisect to the nearest
chunk, then scan it and its immediate neighbours — returns no-conflict on
an empty index, returns no-conflict when no stored entry intersects the
candidate's range, and returns some intersecting stored entry whenever at
least one exists anywhere in the index. -/
theorem overlap_probe_complete (st : IPListState) (hS : StructInv st)
    (cidr : Str) :
    (st.cidrs = [] → findCidrOverlap st cidr = none) ∧
    ((∀ s ∈ st.cidrs, ipRangesOverlap (probeCf cidr) (probeCl cidr)
        (rangeFst s) (rangeLst s) = false) → findCidrOverlap st cidr = none) ∧
    ((∃ s ∈ st.cidrs, ipRangesOverlap (probeCf cidr) (probeCl cidr)
        (rangeFst s) (rangeLst s) = true) →
      ∃ c ∈ st.cidrs, findCidrOverlap st cidr = some c ∧
        ipRangesOverlap (probeCf cidr) (probeCl cidr) (rangeFst c)
          (rangeLst c) = true) := by
  obtain ⟨hch, k, hk, hC, hF, hL, hI⟩ := hS
  refine ⟨?_, ?_, ?_⟩
  · intro hnil
    unfold findCidrOverlap
    rw [if_pos hnil]
  · intro hall
    by_cases hne : st.cidrs = []
    · unfold findCidrOverlap
      rw [if_pos hne]
    · rw [findCidrOverlap_none_iff st cidr hne]
      have hscannone : ∀ r, scanChunkAt st r (probeCf cidr) (probeCl cidr) = none := by
        intro r
        apply (scanChunkAt_spec st k hk hC hF hL r (probeCf cidr) (probeCl cidr)).1.mpr
        intro u hu
        exact hall _ (getD_mem st.cidrs _ (by omega) [])
      have hpnone : ∀ idx, probeTryIdx st (probeCf cidr) (probeCl cidr) idx = none := by
        intro idx
        unfold probeTryIdx
        split
        · exact hscannone _
        · rfl
      exact ⟨hscannone _, hpnone _, hpnone _⟩
  · intro hex
    have hne : st.cidrs ≠ [] := by
      obtain ⟨s, hs, _⟩ := hex
      intro hcon
      rw [hcon] at hs
      exact absurd hs (List.not_mem_nil s)
    rcases hres : findCidrOverlap st cidr with _ | c
    · exfalso
      obtain ⟨h1, h2, h3⟩ := (findCidrOverlap_none_iff st cidr hne).mp hres
      obtain ⟨s, hs, hov⟩ := hex
      have hfalse := findOverlap_core st k hk hch hC hF hL hI (probeCf cidr)
        (probeCl cidr) (probeChunk st cidr) rfl h1 h2 h3 s hs
      rw [hfalse] at hov
      exact Bool.noConfusion hov
    · obtain ⟨hm, ho⟩ := findCidrOverlap_some_mem st k hk hC hF hL cidr hne c hres
      exact ⟨c, hm, rfl, ho⟩

/-- Witness for `overlap_probe_complete`: on the index over `10.0.0.0/8`,
probing the contained candidate `10.1.0.0/16` reports the stored
network as a conflict. -/
theorem overlap_probe_complete_witness :
    ∃ c ∈ exSt1.cidrs, findCidrOverlap exSt1 "10.1.0.0/16".data = some c ∧
      ipRangesOverlap (probeCf "10.1.0.0/16".data) (probeCl "10.1.0.0/16".data)
        (rangeFst c) (rangeLst c) = true :=
  (overlap_probe_complete exSt1 exSt1_structInv "10.1.0.0/16".data).2.2
    ⟨"10.0.0.0/8".data, by decide, by decide⟩

theorem dropWhile_eq_self_of_head (p : Char → Bool) (l : List Char)
    (h : ∀ x, l.head? = some x → p x = false) : l.dropWhile p = l := by
  cases l with
  | nil => rfl
  | cons a as =>
    rw [List.dropWhile_cons, h a rfl]
    simp

theorem head?_dropWhile_false (p : Char → Bool) (l : List Char) :
    ∀ x, (l.dropWhile p).head? = some x → p x = false := by
  induction l with
  | nil => intro x hx; simp [List.dropWhile] at hx
  | cons a as ih =>
    intro x hx
    rw [List.dropWhile_cons] at hx
    by_cases ha : p a
    · rw [if_pos ha] at hx
      exact ih x hx
    · rw [if_neg ha] at hx
      simp at hx
      rw [← hx]
      simpa using ha

theorem getLast?_suffix {l m : List Char} (h : m <:+ l) (hm : m ≠ []) :
    m.getLast? = l.getLast? := by
  obtain ⟨t, rfl⟩ := h
  rw [List.getLast?_append_of_ne_nil _ hm]

theorem pyStrip_head (s : List Char) :
    ∀ x, (pyStrip s).head? = some x → isPyWs x = false := by
  intro x hx
  unfold pyStrip at hx
  rw [List.head?_reverse] at hx
  have hsuf : ((s.dropWhile isPyWs).reverse.dropWhile isPyWs) <:+
      (s.dropWhile isPyWs).reverse := List.dropWhile_suffix isPyWs
  have hne : ((s.dropWhile isPyWs).reverse.dropWhile isPyWs) ≠ [] := by
    intro hcon
    rw [hcon] at hx
    simp at hx
  rw [getLast?_suffix hsuf hne] at hx
  rw [List.getLast?_reverse] at hx
  exact head?_dropWhile_false isPyWs _ x hx

theorem pyStrip_last (s : List Char) :
    ∀ x, (pyStrip s).getLast? = some x → isPyWs x = false := by
  intro x hx
  unfold pyStrip at hx
  rw [List.getLast?_reverse] at hx
  exact head?_dropWhile_false isPyWs _ x hx

theorem pyStrip_eq_self (s : List Char)
    (hh : ∀ x, s.head? = some x → isPyWs x = false)
    (hl : ∀ x, s.getLast? = some x → isPyWs x = false) : pyStrip s = s := by
  unfold pyStrip
  rw [dropWhile_eq_self_of_head isPyWs s hh,
    dropWhile_eq_self_of_head isPyWs s.reverse
      (by intro x hx; rw [List.head?_reverse] at hx; exact hl x hx),
    List.reverse_reverse]

theorem pyStrip_idem (s : List Char) : pyStrip (pyStrip s) = pyStrip s :=
  pyStrip_eq_self (pyStrip s) (pyStrip_head s) (pyStrip_last s)

theorem pyStrip_append (s t : List Char) (hs : pyStrip s = s) (ht : t ≠ [])
    (hth : ∀ x, t.head? = some x → isPyWs x = false)
    (htl : ∀ x, t.getLast? = some x → isPyWs x = false) :
    pyStrip (s ++ t) = s ++ t := by
  apply pyStrip_eq_self
  · intro x hx
    cases s with
    | nil =>
      simp at hx
      exact hth x hx
    | cons a as =>
      simp at hx
      apply pyStrip_head (a :: as)
      rw [hs]
      simp [hx]
  · intro x hx
    rw [List.getLast?_append_of_ne_nil _ ht] at hx
    exact htl x hx

theorem normalizeCidrSuffix_stripped (x : Str) :
    pyStrip (normalizeCidrSuffix x) = normalizeCidrSuffix x := by
  unfold normalizeCidrSuffix
  by_cases h1 : (pyStrip x).contains '/'
  · rw [if_pos h1]
    exact pyStrip_idem x
  · rw [if_neg h1]
    by_cases h2 : (pyStrip x).contains ':'
    · rw [if_pos h2]
      exact pyStrip_append _ _ (pyStrip_idem x) (by simp)
        (by intro y hy; simp at hy; rw [← hy]; rfl)
        (by intro y hy; simp at hy; rw [← hy]; rfl)
    · rw [if_neg h2]
      exact pyStrip_append _ _ (pyStrip_idem x) (by simp)
        (by intro y hy; simp at hy; rw [← hy]; rfl)
        (by intro y hy; simp at hy; rw [← hy]; rfl)

theorem normalizeCidrSuffix_contains (x : Str) :
    (normalizeCidrSuffix x).contains '/' = true := by
  unfold normalizeCidrSuffix
  by_cases h1 : (pyStrip x).contains '/'
  · rw [if_pos h1]
    exact h1
  · rw [if_neg h1]
    by_cases h2 : (pyStrip x).contains ':'
    · rw [if_pos h2]
      simp [List.contains]
    · rw [if_neg h2]
      simp [List.contains]

theorem normalizeCidrSuffix_noop (y : Str) (hs : pyStrip y = y)
    (hc : y.contains '/' = true) : normalizeCidrSuffix y = y := by
  unfold normalizeCidrSuffix
  rw [hs, if_pos hc]

theorem normalizeCidrSuffix_idem (x : Str) :
    normalizeCidrSuffix (normalizeCidrSuffix x) = normalizeCidrSuffix x :=
  normalizeCidrSuffix_noop _ (normalizeCidrSuffix_stripped x)
    (normalizeCidrSuffix_contains x)

theorem normalizeCidrSuffix_ne_nil (x : Str) : normalizeCidrSuffix x ≠ [] := by
  intro hcon
  have := normalizeCidrSuffix_contains x
  rw [hcon] at this
  simp at this

theorem dedupGo_subset (seen l : List Str) : ∀ x ∈ dedupGo seen l, x ∈ l := by
  induction l generalizing seen with
  | nil => intro x hx; simp [dedupGo] at hx
  | cons a as ih =>
    intro x hx
    unfold dedupGo at hx
    by_cases ha : a ∈ seen
    · rw [if_pos ha] at hx
      exact List.mem_cons_of_mem a (ih seen x hx)
    · rw [if_neg ha] at hx
      rcases List.mem_cons.mp hx with h | h
      · rw [h]; exact List.mem_cons_self a as
      · exact List.mem_cons_of_mem a (ih (a :: seen) x h)

theorem dedupGo_nodup (seen l : List Str) :
    (dedupGo seen l).Nodup ∧ ∀ x ∈ dedupGo seen l, x ∉ seen := by
  induction l generalizing seen with
  | nil => simp [dedupGo]
  | cons a as ih =>
    unfold dedupGo
    by_cases ha : a ∈ seen
    · rw [if_pos ha]
      exact ih seen
    · rw [if_neg ha]
      obtain ⟨hnd, hout⟩ := ih (a :: seen)
      refine ⟨List.Nodup.cons ?_ hnd, ?_⟩
      · intro hmem
        exact hout a hmem (List.mem_cons_self a seen)
      · intro x hx
        rcases List.mem_cons.mp hx with h | h
        · rw [h]; exact ha
        · exact fun hc => hout x h (List.mem_cons_of_mem a hc)

theorem dedupFirst_subset (l : List Str) : ∀ x ∈ dedupFirst l, x ∈ l :=
  dedupGo_subset [] l

theorem dedupFirst_nodup (l : List Str) : (dedupFirst l).Nodup :=
  (dedupGo_nodup [] l).1

theorem nar_mem (l : List Str) :
    ∀ v ∈ (normalizeAndRemoveInvalidCidr l).1,
      ∃ z ∈ l, getValidCidr z true = some v := by
  induction l with
  | nil => intro v hv; simp [normalizeAndRemoveInvalidCidr] at hv
  | cons a as ih =>
    intro v hv
    unfold normalizeAndRemoveInvalidCidr at hv
    rcases hg : getValidCidr a true with _ | w
    · rw [hg] at hv
      obtain ⟨z, hz, hzg⟩ := ih v hv
      exact ⟨z, List.mem_cons_of_mem a hz, hzg⟩
    · rw [hg] at hv
      rcases List.mem_cons.mp hv with h | h
      · exact ⟨a, List.mem_cons_self a as, by rw [hg, h]⟩
      · obtain ⟨z, hz, hzg⟩ := ih v h
        exact ⟨z, List.mem_cons_of_mem a hz, hzg⟩

theorem dic_subset (l : List Str) : ∀ v ∈ (discardInvalidCidr l).1, v ∈ l := by
  induction l with
  | nil => intro v hv; simp [discardInvalidCidr] at hv
  | cons a as ih =>
    intro v hv
    unfold discardInvalidCidr at hv
    by_cases ha : isValidCidr a true
    · rw [if_pos ha] at hv
      rcases List.mem_cons.mp hv with h | h
      · rw [h]; exact List.mem_cons_self a as
      · exact List.mem_cons_of_mem a (ih v h)
    · rw [if_neg ha] at hv
      exact List.mem_cons_of_mem a (ih v hv)

theorem sortBy_nodup {le : α → α → Bool} {l : List α} (h : l.Nodup) :
    (sortBy le l).Nodup :=
  (sortBy_perm le l).symm.nodup h

theorem rangesDisjoint_of_nodup_mem (U : List Str)
    (hdisj : ∀ a ∈ U, ∀ b ∈ U, a ≠ b → RangeDisjoint a b) :
    ∀ m : List Str, m.Nodup → (∀ x ∈ m, x ∈ U) → RangesDisjoint m := by
  intro m
  induction m with
  | nil => intro _ _; exact List.Pairwise.nil
  | cons x xs ih =>
    intro hnd hsub
    rw [List.nodup_cons] at hnd
    refine List.Pairwise.cons ?_ (ih hnd.2 fun y hy => hsub y (List.mem_cons_of_mem x hy))
    intro y hy
    refine hdisj x (hsub x (List.mem_cons_self x xs)) y
      (hsub y (List.mem_cons_of_mem x hy)) ?_
    intro hcon
    rw [hcon] at hnd
    exact hnd.1 hy

theorem rangeDisjoint_symm {a b : Str} (h : RangeDisjoint a b) :
    RangeDisjoint b a := h.symm

theorem chained_pair_disjoint (L : List Str) (h : Chained L) :
    ∀ a ∈ L, ∀ b ∈ L, a ≠ b → RangeDisjoint a b := by
  have hP : L.Pairwise RangeDisjoint := h.rangesDisjoint
  intro a ha b hb hne
  exact hP.forall (fun x y hxy => rangeDisjoint_symm hxy) ha hb hne

theorem processList_check_disjoint (cfg : Config) (st : IPListState)
    (input d : List Str) :
    RangesDisjoint ((processList cfg st input true d).1).cidrs := by
  simp only [processList]
  set nl1 := ((dedupFirst input).map pyStrip).filter (fun s => s ≠ []) with hnl1
  by_cases h1 : nl1 = []
  · rw [if_pos h1]
    exact List.Pairwise.nil
  · rw [if_neg h1]
    set p1 := (if cfg.normalizeInvalidCidr then normalizeAndRemoveInvalidCidr nl1
      else (normalizeCidrList nl1, [])) with hp1
    set p2 := discardInvalidCidr p1.1 with hp2
    by_cases h2 : p2.1 = []
    · rw [if_pos h2]
      exact List.Pairwise.nil
    · rw [if_neg h2]
      rw [if_pos trivial]
      set nl4 := sortBy (fun a b => decide (sortKeyOf a ≤ sortKeyOf b))
        ((sortBy strLeB (dedupFirst p2.1)).filter (fun s => s ≠ [])) with hnl4
      rcases hro : removeOverlappingCidrs nl4 with _ | ⟨nl5, disc3⟩
      · simp only [hro]
        exact List.Pairwise.nil
      · simp only [hro]
        exact (removeOverlapping_chained nl4 nl5 disc3 hro).rangesDisjoint

theorem processList_noCheck_disjoint (cfg : Config) (st : IPListState)
    (input d : List Str)
    (hU : ∀ z ∈ input, pyStrip z = z ∧
      (cfg.normalizeInvalidCidr = true → getValidCidr z true = some z) ∧
      (cfg.normalizeInvalidCidr = false → normalizeCidrSuffix z = z))
    (hDisj : ∀ a ∈ input, ∀ b ∈ input, a ≠ b → RangeDisjoint a b) :
    RangesDisjoint ((processList cfg st input false d).1).cidrs := by
  simp only [processList]
  set nl1 := ((dedupFirst input).map pyStrip).filter (fun s => s ≠ []) with hnl1
  have hnl1sub : ∀ x ∈ nl1, x ∈ input := by
    intro x hx
    rw [hnl1] at hx
    have hx1 := (List.mem_filter.mp hx).1
    obtain ⟨z, hz, hzx⟩ := List.mem_map.mp hx1
    have hzin := dedupFirst_subset input z hz
    rw [← hzx, (hU z hzin).1]
    exact hzin
  by_cases h1 : nl1 = []
  · rw [if_pos h1]
    exact List.Pairwise.nil
  · rw [if_neg h1]
    set p1 := (if cfg.normalizeInvalidCidr then normalizeAndRemoveInvalidCidr nl1
      else (normalizeCidrList nl1, [])) with hp1
    have hp1sub : ∀ x ∈ p1.1, x ∈ input := by
      rw [hp1]
      by_cases hcfg : cfg.normalizeInvalidCidr
      · rw [if_pos hcfg]
        intro x hx
        obtain ⟨z, hz, hzg⟩ := nar_mem nl1 x hx
        have hzin := hnl1sub z hz
        rw [(hU z hzin).2.1 hcfg] at hzg
        have hzx := Option.some.inj hzg
        rw [← hzx]
        exact hzin
      · rw [if_neg hcfg]
        intro x hx
        obtain ⟨z, hz, hzx⟩ := List.mem_map.mp hx
        have hzin := hnl1sub z hz
        rw [← hzx, (hU z hzin).2.2 (by simpa using hcfg)]
        exact hzin
    set p2 := discardInvalidCidr p1.1 with hp2
    by_cases h2 : p2.1 = []
    · rw [if_pos h2]
      exact List.Pairwise.nil
    · rw [if_neg h2]
      rw [if_neg Bool.false_ne_true]
      set nl4 := sortBy (fun a b => decide (sortKeyOf a ≤ sortKeyOf b))
        ((sortBy strLeB (dedupFirst p2.1)).filter (fun s => s ≠ [])) with hnl4
      show RangesDisjoint nl4
      have hnl4nd : nl4.Nodup := by
        rw [hnl4]
        exact sortBy_nodup (List.Nodup.filter _ (sortBy_nodup (dedupFirst_nodup p2.1)))
      have hnl4sub : ∀ x ∈ nl4, x ∈ input := by
        intro x hx
        rw [hnl4] at hx
        have hx1 := mem_sortBy.mp hx
        have hx2 := (List.mem_filter.mp hx1).1
        have hx3 := mem_sortBy.mp hx2
        exact hp1sub x (dic_subset p1.1 x (dedupFirst_subset _ x hx3))
      exact rangesDisjoint_of_nodup_mem input hDisj nl4 hnl4nd hnl4sub

theorem findCidrOverlap_none_sound (st : IPListState) (hS : StructInv st)
    (cidr : Str) (hnone : findCidrOverlap st cidr = none) :
    ∀ s ∈ st.cidrs, ipRangesOverlap (probeCf cidr) (probeCl cidr)
      (rangeFst s) (rangeLst s) = false := by
  obtain ⟨hch, k, hk, hC, hF, hL, hI⟩ := hS
  by_cases hne : st.cidrs = []
  · intro s hs
    rw [hne] at hs
    exact absurd hs (List.not_mem_nil s)
  · obtain ⟨h1, h2, h3⟩ := (findCidrOverlap_none_iff st cidr hne).mp hnone
    exact findOverlap_core st k hk hch hC hF hL hI (probeCf cidr) (probeCl cidr)
      (probeChunk st cidr) rfl h1 h2 h3

theorem testPass_props (cfg : Config) (st : IPListState) (c1 cand : Str)
    (h : testIsValidIpNetwork cfg st c1 = .pass cand) :
    cand = normalizeCidrSuffix (pyStrip c1) ∧ isValidCidr cand true = true ∧
    cand ∉ st.cidrs ∧ findCidrOverlap st cand = none := by
  unfold testIsValidIpNetwork at h
  by_cases hv : isValidCidr (normalizeCidrSuffix (pyStrip c1)) true
  · rw [if_neg (by simp [hv])] at h
    by_cases hm : normalizeCidrSuffix (pyStrip c1) ∈ st.cidrs
    · rw [if_pos hm] at h
      split at h <;> exact TestRes.noConfusion h
    · rw [if_neg hm] at h
      rcases ho : findCidrOverlap st (normalizeCidrSuffix (pyStrip c1)) with _ | c
      · simp only [ho] at h
        have hcand := (TestRes.pass.injEq _ _).mp h.symm
        refine ⟨hcand, ?_, ?_, ?_⟩
        · rw [hcand]
          exact hv
        · rw [hcand]
          exact hm
        · rw [hcand]
          exact ho
      · simp only [ho] at h
        split at h <;> exact TestRes.noConfusion h
  · rw [if_pos (by simp [hv])] at h
    split at h <;> exact TestRes.noConfusion h

/-- The candidate string `add_ip_network` appends on its success path:
the validated, suffix-normalized form of the (optionally
`get_valid_cidr`-normalized) stripped input. -/
def addCandidate (cfg : Config) (st : IPListState) (ipaddr : Str) : Option Str :=
  match (if cfg.normalizeInvalidCidr then getValidCidr (pyStrip ipaddr) true
         else some (pyStrip ipaddr)) with
  | none => none
  | some c1 =>
    match testIsValidIpNetwork cfg { st with discardedCidrs := [] } c1 with
    | .pass cand => some cand
    | _ => none

theorem add_universe_disjoint (st : IPListState) (hS : StructInv st) (cand : Str)
    (hnone : findCidrOverlap st cand = none)
    (hnrm : normalizeCidrSuffix cand = cand) :
    ∀ a ∈ st.cidrs ++ [cand], ∀ b ∈ st.cidrs ++ [cand], a ≠ b →
      RangeDisjoint a b := by
  have hsound := findCidrOverlap_none_sound st hS cand hnone
  have hdisjN : ∀ s ∈ st.cidrs, RangeDisjoint cand s := by
    intro s hs
    have h := hsound s hs
    unfold probeCf probeCl at h
    rw [hnrm] at h
    unfold ipRangesOverlap at h
    have e1 : (getFirstLastIpCidr cand).1 = rangeFst cand := rfl
    have e2 : (getFirstLastIpCidr cand).2 = rangeLst cand := rfl
    rw [e1, e2] at h
    unfold RangeDisjoint
    simp at h
    omega
  have hchain := chained_pair_disjoint st.cidrs hS.1
  intro a ha b hb hne
  rcases List.mem_append.mp ha with ha1 | ha1 <;>
    rcases List.mem_append.mp hb with hb1 | hb1
  · exact hchain a ha1 b hb1 hne
  · rw [List.mem_singleton.mp hb1]
    exact rangeDisjoint_symm (hdisjN a ha1)
  · rw [List.mem_singleton.mp ha1]
    exact hdisjN b hb1
  · rw [List.mem_singleton.mp ha1, List.mem_singleton.mp hb1] at hne
    exact absurd rfl hne

theorem removeListGo_subset (st : IPListState) (l : List Str) :
    ∀ x ∈ (removeListGo st l).cidrs, x ∈ st.cidrs := by
  induction l generalizing st with
  | nil => intro x hx; exact hx
  | cons ip rest ih =>
    intro x hx
    unfold removeListGo at hx
    by_cases hc : normalizeCidrSuffix (pyStrip ip) ≠ [] ∧
        normalizeCidrSuffix (pyStrip ip) ∈ st.cidrs
    · rw [if_pos hc] at hx
      have hrec := ih { st with
        cidrs := st.cidrs.erase (normalizeCidrSuffix (pyStrip ip)) } x hx
      exact List.mem_of_mem_erase hrec
    · rw [if_neg hc] at hx
      exact ih st x hx

/-- An entry of the canonical list in the normal form the pipeline of
`__process_list` preserves: stripped, and a fixed point of the
normalization stage selected by `normalize_invalid_cidr`. -/
def EntryNF (cfg : Config) (z : Str) : Prop :=
  pyStrip z = z ∧
    (cfg.normalizeInvalidCidr = true → getValidCidr z true = some z) ∧
    (cfg.normalizeInvalidCidr = false → normalizeCidrSuffix z = z)

/-- C2: no-overlap invariant.  Construction, `set_ip_networks_list` and a
successful `add_ip_networks_list` rebuild with overlap checking, so their
published canonical lists are pairwise disjoint unconditionally.
`add_ip_network` and the removals rebuild without overlap checking; for a
structurally well-formed state whose entries are in pipeline normal form
(and, for an add in normalize mode, an accepted candidate that is a
`get_valid_cidr` fixed point — idempotence on IPv6 fails, see the C6
evaluation), the published list is again pairwise disjoint. -/
theorem no_overlap_invariant (cfg : Config) (st : IPListState)
    (hS : StructInv st) (hNF : ∀ z ∈ st.cidrs, EntryNF cfg z) :
    (∀ input, RangesDisjoint ((construct cfg input).1).cidrs) ∧
    (∀ l, RangesDisjoint ((setIpNetworksList cfg st l).1).cidrs) ∧
    (∀ l st', addIpNetworksList cfg st l = (st', .ok true) →
      RangesDisjoint st'.cidrs) ∧
    (∀ ipaddr,
      (∀ cand, addCandidate cfg st ipaddr = some cand →
        cfg.normalizeInvalidCidr = true → getValidCidr cand true = some cand) →
      RangesDisjoint ((addIpNetwork cfg st ipaddr).1).cidrs) ∧
    (∀ ipaddr, RangesDisjoint ((removeIpNetwork cfg st ipaddr).1).cidrs) ∧
    (∀ l, RangesDisjoint ((removeIpNetworksList cfg st l).1).cidrs) := by
  refine ⟨?_, ?_, ?_, ?_, ?_, ?_⟩
  · intro input
    exact processList_check_disjoint cfg emptyState input []
  · intro l
    exact processList_check_disjoint cfg (clearLists st true) l []
  · intro l st' heq
    unfold addIpNetworksList at heq
    rcases hgo : addListGo cfg { st with discardedCidrs := [] } l with ⟨st1, flag⟩
    cases flag
    · simp only [hgo] at heq
      have h1 : (processList cfg st1 st1.cidrs true st1.discardedCidrs).1 = st' := by
        have h2 := congrArg Prod.fst heq
        simpa using h2
      rw [← h1]
      exact processList_check_disjoint cfg st1 st1.cidrs st1.discardedCidrs
    · simp only [hgo] at heq
      split at heq <;> simp at heq
  · intro ipaddr hfix
    unfold addIpNetwork
    rcases hc1 : (if cfg.normalizeInvalidCidr then getValidCidr (pyStrip ipaddr) true
        else some (pyStrip ipaddr)) with _ | c1
    · simp only [hc1]
      exact hS.1.rangesDisjoint
    · simp only [hc1]
      rcases ht : testIsValidIpNetwork cfg { st with discardedCidrs := [] } c1
        with _ | _ | cand
      · simp only [ht]
        exact hS.1.rangesDisjoint
      · simp only [ht]
        exact hS.1.rangesDisjoint
      · simp only [ht]
        obtain ⟨hcand, hval, hmem, hnone⟩ := testPass_props cfg _ c1 cand ht
        have hnone' : findCidrOverlap st cand = none := hnone
        have hnrm : normalizeCidrSuffix cand = cand := by
          rw [hcand]
          exact normalizeCidrSuffix_idem _
        have hstrip : pyStrip cand = cand := by
          rw [hcand]
          exact normalizeCidrSuffix_stripped _
        have hgvc : cfg.normalizeInvalidCidr = true →
            getValidCidr cand true = some cand := by
          intro htrue
          exact hfix cand (by simp only [addCandidate, hc1, ht]) htrue
        apply processList_noCheck_disjoint
        · intro z hz
          rcases List.mem_append.mp hz with hz1 | hz1
          · exact hNF z hz1
          · rw [List.mem_singleton.mp hz1]
            exact ⟨hstrip, hgvc, fun _ => hnrm⟩
        · exact add_universe_disjoint st hS cand hnone' hnrm
  · intro ipaddr
    unfold removeIpNetwork
    by_cases hc : st.cidrs = []
    · rw [if_pos hc]
      exact hS.1.rangesDisjoint
    · rw [if_neg hc]
      by_cases hin : normalizeCidrSuffix (pyStrip ipaddr) ≠ [] ∧
          normalizeCidrSuffix (pyStrip ipaddr) ∈ st.cidrs
      · rw [if_pos hin]
        apply processList_noCheck_disjoint
        · intro z hz
          exact hNF z (List.mem_of_mem_erase hz)
        · intro a ha b hb hne
          exact chained_pair_disjoint st.cidrs hS.1 a (List.mem_of_mem_erase ha) b
            (List.mem_of_mem_erase hb) hne
      · rw [if_neg hin]
        exact hS.1.rangesDisjoint
  · intro l
    unfold removeIpNetworksList
    by_cases hc : st.cidrs = []
    · rw [if_pos hc]
      exact hS.1.rangesDisjoint
    · rw [if_neg hc]
      have hsub := removeListGo_subset st l
      apply processList_noCheck_disjoint
      · intro z hz
        exact hNF z (hsub z hz)
      · intro a ha b hb hne
        exact chained_pair_disjoint st.cidrs hS.1 a (hsub a ha) b (hsub b hb) hne

/-- Witness for `no_overlap_invariant`: on the index over `10.0.0.0/8`
(boolean mode, no normalize), adding a disjoint network and removing the
stored one publish pairwise-disjoint lists. -/
theorem no_overlap_invariant_witness :
    RangesDisjoint ((addIpNetwork ⟨false, false⟩ exSt1 "11.0.0.0/8".data).1).cidrs ∧
    RangesDisjoint ((removeIpNetwork ⟨false, false⟩ exSt1 "10.0.0.0/8".data).1).cidrs := by
  have hNF : ∀ z ∈ exSt1.cidrs, EntryNF ⟨false, false⟩ z := by
    intro z hz
    have he : exSt1.cidrs = ["10.0.0.0/8".data] := by decide
    rw [he] at hz
    rw [List.mem_singleton.mp hz]
    exact ⟨by decide, by decide, by decide⟩
  have h := no_overlap_invariant ⟨false, false⟩ exSt1 exSt1_structInv hNF
  exact ⟨h.2.2.2.1 "11.0.0.0/8".data
      (fun cand _ hfalse => absurd hfalse (by decide)),
    h.2.2.2.2.1 "10.0.0.0/8".data⟩
